import Mathlib

/-!
Verification of the watch-progress aggregation engine of the video-lesson
tracking service (VideoProgressService and its database schema).

The numeric type of the player timeline is modelled as the rationals.
Database tables are modelled as lists of rows, and the service operations
as explicit state transformers over a database state.
-/

namespace VideoProgress

/-- An interval (startSecond, endSecond) as pushed into coveredIntervals by
calculateProgressFromSegments. -/
abbrev Interval : Type := ℚ × ℚ

/-- Sorting of intervals by start time, mirroring intervals.sort((a, b) => a[0] - b[0])
in calculateCoverageFromIntervals.  The JS sort is stable, as is mergeSort. -/
def sortIntervals (intervals : List Interval) : List Interval :=
  intervals.mergeSort fun a b => decide (a.1 ≤ b.1)

/-- The scan loop of calculateCoverageFromIntervals: state is the running
interval (currentStart, currentEnd) and the flushed total. -/
def coverLoop : ℚ → ℚ → ℚ → List Interval → ℚ
  | currentStart, currentEnd, totalCoverage, [] =>
      totalCoverage + (currentEnd - currentStart)
  | currentStart, currentEnd, totalCoverage, (s, e) :: rest =>
      if s ≤ currentEnd then
        coverLoop currentStart (max currentEnd e) totalCoverage rest
      else
        coverLoop s e (totalCoverage + (currentEnd - currentStart)) rest

/-- The scan of calculateCoverageFromIntervals on the already-sorted list:
0 for the empty list, else the merging loop seeded with the first interval. -/
def covSorted : List Interval → ℚ
  | [] => 0
  | (s, e) :: rest => coverLoop s e 0 rest

/-- calculateCoverageFromIntervals: sort by start, then a single merging scan;
empty input returns 0. -/
def calculateCoverageFromIntervals (intervals : List Interval) : ℚ :=
  covSorted (sortIntervals intervals)

/-- A watch segment row as consumed by calculateProgressFromSegments
(startSecond, endSecond, and the parsed playback speed). -/
structure Segment where
  startSecond : ℚ
  endSecond : ℚ
  speed : ℚ
deriving DecidableEq, Repr

/-- The ProgressSummary record.  speedBreakdown is the Record of per-speed raw
durations, modelled as a total function defaulting to 0 on absent keys. -/
structure ProgressSummary where
  totalEffectiveSeconds : ℚ
  coverageSeconds : ℚ
  maxVerifiedSecond : ℚ
  skipEvents : ℕ
  speedBreakdown : ℚ → ℚ

/-- calculateProgressFromSegments: one pass accumulating effective time, max
verified second, covered intervals and the per-speed breakdown, then coverage
via calculateCoverageFromIntervals.  The single JS loop is rendered as one
fold per accumulator. -/
def calculateProgressFromSegments (segments : List Segment) : ProgressSummary :=
  let totalEffectiveSeconds :=
    segments.foldl (fun acc seg => acc + (seg.endSecond - seg.startSecond) / seg.speed) 0
  let maxVerifiedSecond :=
    segments.foldl (fun acc seg => max acc seg.endSecond) 0
  let coveredIntervals : List Interval :=
    segments.map fun seg => (seg.startSecond, seg.endSecond)
  let speedBreakdown : ℚ → ℚ :=
    segments.foldl
      (fun acc seg =>
        Function.update acc seg.speed (acc seg.speed + (seg.endSecond - seg.startSecond)))
      (fun _ => 0)
  { totalEffectiveSeconds := totalEffectiveSeconds
    coverageSeconds := calculateCoverageFromIntervals coveredIntervals
    maxVerifiedSecond := maxVerifiedSecond
    skipEvents := 0
    speedBreakdown := speedBreakdown }

/-- Client payload for recordWatchSegment (WatchSegmentData). -/
structure WatchSegmentData where
  clientEventId : String
  startSecond : ℚ
  endSecond : ℚ
  speed : ℚ
deriving DecidableEq, Repr

/-- Client payload for recordSeekEvent (SeekEventData). -/
structure SeekEventData where
  fromSecond : ℚ
  toSecond : ℚ
  allowed : Bool
  reason : String
deriving DecidableEq, Repr

/-- A row of the watch_segment table (columns relevant to the service). -/
structure WatchSegmentRow where
  sessionId : ℕ
  clientEventId : String
  startSecond : ℚ
  endSecond : ℚ
  speed : ℚ
deriving DecidableEq, Repr

/-- A row of the seek_event table (columns relevant to the service). -/
structure SeekEventRow where
  sessionId : ℕ
  fromSecond : ℚ
  toSecond : ℚ
  allowed : Bool
  reason : String
  isSkip : Bool
  skipDistance : ℚ
deriving DecidableEq, Repr

/-- A row of the watch_session table.  Timestamps are modelled as natural
clock ticks; closedAt is null while the session is open. -/
structure WatchSessionRow where
  id : ℕ
  lessonAttemptId : Option ℕ
  closedAt : Option ℕ
deriving DecidableEq, Repr

/-- A row of the lesson_attempt table (the aggregate fields written by
calculateSessionProgress). -/
structure LessonAttemptRow where
  id : ℕ
  maxVerifiedSecond : ℚ
  totalEffectiveSeconds : ℚ
  coverageSeconds : ℚ
  skipEvents : ℕ
  updatedAt : ℕ
deriving DecidableEq, Repr

/-- The database state: the four tables as lists of rows. -/
structure DBState where
  sessions : List WatchSessionRow
  segments : List WatchSegmentRow
  seekEvents : List SeekEventRow
  attempts : List LessonAttemptRow
deriving DecidableEq, Repr

/-- recordWatchSegment: INSERT INTO watch_segment ... ON CONFLICT DO NOTHING,
guarded by the unique constraint on (sessionId, clientEventId) declared in
the watch_segment schema. -/
def recordWatchSegment (st : DBState) (sessionId : ℕ) (segment : WatchSegmentData) :
    DBState :=
  if st.segments.any fun r =>
      r.sessionId == sessionId && r.clientEventId == segment.clientEventId then
    st
  else
    { st with
      segments := st.segments ++
        [{ sessionId := sessionId
           clientEventId := segment.clientEventId
           startSecond := segment.startSecond
           endSecond := segment.endSecond
           speed := segment.speed }] }

/-- The seek_event row built by recordSeekEvent: skipDistance is the absolute
jump distance and isSkip marks disallowed jumps longer than 5 seconds. -/
def mkSeekEventRow (sessionId : ℕ) (seekData : SeekEventData) : SeekEventRow :=
  let skipDistance := |seekData.toSecond - seekData.fromSecond|
  let isSkip := !seekData.allowed && decide (skipDistance > 5)
  { sessionId := sessionId
    fromSecond := seekData.fromSecond
    toSecond := seekData.toSecond
    allowed := seekData.allowed
    reason := seekData.reason
    isSkip := isSkip
    skipDistance := skipDistance }

/-- recordSeekEvent: inserts one seek_event row (no deduplication). -/
def recordSeekEvent (st : DBState) (sessionId : ℕ) (seekData : SeekEventData) :
    DBState :=
  { st with seekEvents := st.seekEvents ++ [mkSeekEventRow sessionId seekData] }

/-- View of a watch_segment row as input to calculateProgressFromSegments. -/
def segmentOfRow (r : WatchSegmentRow) : Segment :=
  { startSecond := r.startSecond, endSecond := r.endSecond, speed := r.speed }

/-- The segments of one session, ordered by startSecond, as selected in
calculateSessionProgress. -/
def sessionSegments (st : DBState) (sessionId : ℕ) : List WatchSegmentRow :=
  (st.segments.filter fun r => r.sessionId == sessionId).mergeSort
    fun a b => decide (a.startSecond ≤ b.startSecond)

/-- The count of seek_event rows of one session with isSkip set, as selected
in calculateSessionProgress. -/
def sessionSkipCount (st : DBState) (sessionId : ℕ) : ℕ :=
  (st.seekEvents.filter fun ev => ev.sessionId == sessionId && ev.isSkip).length

/-- The lesson_attempt row update written by calculateSessionProgress: the
row with the linked attempt id is overwritten with the summary recomputed
from this sessions segments, its skip counter incremented by this sessions
skip count; other rows are untouched. -/
def attemptUpdate (st : DBState) (now sessionId attemptId : ℕ)
    (a : LessonAttemptRow) : LessonAttemptRow :=
  if a.id == attemptId then
    { a with
      maxVerifiedSecond := (calculateProgressFromSegments
        ((sessionSegments st sessionId).map segmentOfRow)).maxVerifiedSecond
      totalEffectiveSeconds := (calculateProgressFromSegments
        ((sessionSegments st sessionId).map segmentOfRow)).totalEffectiveSeconds
      coverageSeconds := (calculateProgressFromSegments
        ((sessionSegments st sessionId).map segmentOfRow)).coverageSeconds
      skipEvents := a.skipEvents + sessionSkipCount st sessionId
      updatedAt := now }
  else a

/-- calculateSessionProgress: looks up the session; returns unchanged when
the session is missing or unlinked (the session?.lessonAttemptId guard);
otherwise recomputes the progress of this sessions segments and writes it
onto the linked lesson_attempt row through attemptUpdate. -/
def calculateSessionProgress (st : DBState) (now : ℕ) (sessionId : ℕ) : DBState :=
  ((st.sessions.find? fun s => s.id == sessionId).bind
      fun session => session.lessonAttemptId).elim st
    fun attemptId =>
      { st with
        attempts := st.attempts.map (attemptUpdate st now sessionId attemptId) }

/-- closeSession: sets closedAt = now on the session row, then triggers
calculateSessionProgress. -/
def closeSession (st : DBState) (now : ℕ) (sessionId : ℕ) : DBState :=
  let st1 : DBState :=
    { st with
      sessions := st.sessions.map fun s =>
        if s.id == sessionId then { s with closedAt := some now } else s }
  calculateSessionProgress st1 now sessionId

/-! Spec-side definitions: the merged interval sequence described in the
IntervalMerger contract, interval unions as sets of rationals, and overlap
predicates, used to compare calculateCoverageFromIntervals with its
specification. -/

/-- Sum of the raw lengths of a list of intervals. -/
def sumLen (l : List Interval) : ℚ :=
  (l.map fun p => p.2 - p.1).sum

/-- The union of the half-open intervals of a list, as a set of rationals. -/
def unionSet (l : List Interval) : Set ℚ :=
  l.foldr (fun p s => Set.Ico p.1 p.2 ∪ s) ∅

/-- The merged interval sequence of the IntervalMerger specification: same
scan as coverLoop, but returning the merged intervals instead of the summed
length. -/
def mergeRuns : ℚ → ℚ → List Interval → List Interval
  | cs, ce, [] => [(cs, ce)]
  | cs, ce, (s, e) :: rest =>
    if s ≤ ce then mergeRuns cs (max ce e) rest
    else (cs, ce) :: mergeRuns s e rest

/-- The merged sequence of an already-sorted list. -/
def mergeSorted : List Interval → List Interval
  | [] => []
  | (s, e) :: rest => mergeRuns s e rest

/-- The merged interval sequence for an arbitrary input list: sort by start,
then merge. -/
def mergedIntervals (l : List Interval) : List Interval :=
  mergeSorted (sortIntervals l)

/-- Proper overlap: the two intervals share a sub-interval of positive
length. -/
def overlap (p q : Interval) : Prop :=
  max p.1 q.1 < min p.2 q.2

/-- Overlap or touch: the closed hulls of the two intervals intersect. -/
def overlapOrTouch (p q : Interval) : Prop :=
  max p.1 q.1 ≤ min p.2 q.2

/-- A list of intervals ordered by nondecreasing start. -/
def sortedByStart (l : List Interval) : Prop :=
  List.Pairwise (fun p q : Interval => p.1 ≤ q.1) l

/-- Lookup of a lesson_attempt row by id. -/
def findAttempt (st : DBState) (attemptId : ℕ) : Option LessonAttemptRow :=
  st.attempts.find? fun a => a.id == attemptId

/-- Lookup of a watch_session row by id. -/
def findSession (st : DBState) (sessionId : ℕ) : Option WatchSessionRow :=
  st.sessions.find? fun s => s.id == sessionId

/-! Basic lemmas about the sorting step and the interval union. -/

theorem coverLoop_nil (cs ce t : ℚ) : coverLoop cs ce t [] = t + (ce - cs) := rfl

theorem coverLoop_cons (cs ce t s e : ℚ) (rest : List Interval) :
    coverLoop cs ce t ((s, e) :: rest) =
      if s ≤ ce then coverLoop cs (max ce e) t rest
      else coverLoop s e (t + (ce - cs)) rest := rfl

theorem mergeRuns_nil (cs ce : ℚ) : mergeRuns cs ce [] = [(cs, ce)] := rfl

theorem mergeRuns_cons (cs ce s e : ℚ) (rest : List Interval) :
    mergeRuns cs ce ((s, e) :: rest) =
      if s ≤ ce then mergeRuns cs (max ce e) rest
      else (cs, ce) :: mergeRuns s e rest := rfl

theorem sortIntervals_perm (l : List Interval) : (sortIntervals l).Perm l :=
  List.mergeSort_perm l _

theorem sortedByStart_sortIntervals (l : List Interval) :
    sortedByStart (sortIntervals l) := by
  have h := @List.sorted_mergeSort Interval
    (fun a b : Interval => decide (a.1 ≤ b.1))
    (fun a b c hab hbc => by
      simp only [decide_eq_true_eq] at *
      exact le_trans hab hbc)
    (fun a b => by
      simp only [Bool.or_eq_true, decide_eq_true_eq]
      exact le_total a.1 b.1) l
  exact h.imp fun hab => of_decide_eq_true hab

theorem sumLen_nil : sumLen [] = 0 := rfl

theorem sumLen_cons (p : Interval) (l : List Interval) :
    sumLen (p :: l) = (p.2 - p.1) + sumLen l := by
  simp [sumLen]

theorem sumLen_perm {l l' : List Interval} (h : l.Perm l') : sumLen l = sumLen l' :=
  (h.map _).sum_eq

theorem sumLen_cons_pair (s e : ℚ) (l : List Interval) :
    sumLen ((s, e) :: l) = (e - s) + sumLen l := by
  simp [sumLen]

theorem unionSet_nil : unionSet [] = ∅ := rfl

theorem unionSet_cons (p : Interval) (l : List Interval) :
    unionSet (p :: l) = Set.Ico p.1 p.2 ∪ unionSet l := rfl

theorem unionSet_append (l₁ l₂ : List Interval) :
    unionSet (l₁ ++ l₂) = unionSet l₁ ∪ unionSet l₂ := by
  induction l₁ with
  | nil => simp [unionSet_nil]
  | cons p l ih =>
      simp only [List.cons_append, unionSet_cons, ih, Set.union_assoc]

theorem mem_unionSet {x : ℚ} {l : List Interval} :
    x ∈ unionSet l ↔ ∃ p ∈ l, x ∈ Set.Ico p.1 p.2 := by
  induction l with
  | nil => simp [unionSet_nil]
  | cons p l ih =>
      simp only [unionSet_cons, Set.mem_union, ih, List.mem_cons]
      constructor
      · rintro (hx | ⟨q, hq, hxq⟩)
        · exact ⟨p, Or.inl rfl, hx⟩
        · exact ⟨q, Or.inr hq, hxq⟩
      · rintro ⟨q, hq | hq, hxq⟩
        · exact Or.inl (hq ▸ hxq)
        · exact Or.inr ⟨q, hq, hxq⟩

theorem unionSet_perm {l l' : List Interval} (h : l.Perm l') :
    unionSet l = unionSet l' := by
  ext x
  simp only [mem_unionSet]
  constructor
  · rintro ⟨p, hp, hxp⟩; exact ⟨p, h.mem_iff.mp hp, hxp⟩
  · rintro ⟨p, hp, hxp⟩; exact ⟨p, h.mem_iff.mpr hp, hxp⟩

theorem Ico_subset_unionSet {p : Interval} {l : List Interval} (hp : p ∈ l) :
    Set.Ico p.1 p.2 ⊆ unionSet l := fun _ hx => mem_unionSet.mpr ⟨p, hp, hx⟩

/-! Correctness of the merging scan with respect to the merged interval
sequence of the specification. -/

theorem coverLoop_eq_sumLen_mergeRuns (l : List Interval) :
    ∀ cs ce t, coverLoop cs ce t l = t + sumLen (mergeRuns cs ce l) := by
  induction l with
  | nil =>
      intro cs ce t
      simp [coverLoop_nil, mergeRuns_nil, sumLen_cons, sumLen_nil]
  | cons q rest ih =>
      intro cs ce t
      obtain ⟨s, e⟩ := q
      rw [coverLoop_cons, mergeRuns_cons]
      by_cases hs : s ≤ ce
      · rw [if_pos hs, if_pos hs, ih]
      · rw [if_neg hs, if_neg hs, ih, sumLen_cons]
        ring

theorem mergeRuns_union (l : List Interval) :
    ∀ cs ce, (∀ q ∈ l, q.1 ≤ q.2) → sortedByStart l → (∀ q ∈ l, cs ≤ q.1) →
      unionSet (mergeRuns cs ce l) = Set.Ico cs ce ∪ unionSet l := by
  induction l with
  | nil =>
      intro cs ce _ _ _
      simp [mergeRuns_nil, unionSet_cons, unionSet_nil]
  | cons q rest ih =>
      intro cs ce hwf hsorted hlb
      obtain ⟨s, e⟩ := q
      have hse : s ≤ e := hwf (s, e) (List.mem_cons_self _ _)
      have hcs : cs ≤ s := hlb (s, e) (List.mem_cons_self _ _)
      have hsorted' : sortedByStart rest := (List.pairwise_cons.mp hsorted).2
      have hhead : ∀ q ∈ rest, s ≤ q.1 := (List.pairwise_cons.mp hsorted).1
      have hwf' : ∀ q ∈ rest, q.1 ≤ q.2 := fun q hq => hwf q (List.mem_cons_of_mem _ hq)
      rw [mergeRuns_cons]
      by_cases hs : s ≤ ce
      · rw [if_pos hs]
        rw [ih _ _ hwf' hsorted' (fun q hq => le_trans hcs (hhead q hq))]
        have hunion : Set.Ico cs ce ∪ Set.Ico s e = Set.Ico cs (max ce e) := by
          rw [Set.Ico_union_Ico' hs (le_trans hcs hse), min_eq_left hcs]
        rw [unionSet_cons, ← hunion]
        simp [Set.union_assoc]
      · rw [if_neg hs]
        rw [unionSet_cons, ih _ _ hwf' hsorted' hhead, unionSet_cons]

theorem mergeRuns_head (l : List Interval) :
    ∀ cs ce, ∃ b M, mergeRuns cs ce l = (cs, b) :: M := by
  induction l with
  | nil => intro cs ce; exact ⟨ce, [], rfl⟩
  | cons q rest ih =>
      intro cs ce
      obtain ⟨s, e⟩ := q
      rw [mergeRuns_cons]
      by_cases hs : s ≤ ce
      · rw [if_pos hs]; exact ih cs (max ce e)
      · rw [if_neg hs]; exact ⟨ce, mergeRuns s e rest, rfl⟩

theorem mergeRuns_chain (l : List Interval) :
    ∀ cs ce, List.Chain' (fun p q : Interval => p.2 < q.1) (mergeRuns cs ce l) := by
  induction l with
  | nil => intro cs ce; simp [mergeRuns_nil]
  | cons q rest ih =>
      intro cs ce
      obtain ⟨s, e⟩ := q
      rw [mergeRuns_cons]
      by_cases hs : s ≤ ce
      · rw [if_pos hs]; exact ih cs (max ce e)
      · rw [if_neg hs]
        obtain ⟨b, M, hM⟩ := mergeRuns_head rest s e
        rw [hM]
        exact List.Chain'.cons (by simpa using lt_of_not_le hs) (hM ▸ ih s e)

theorem mergeRuns_wf (l : List Interval) :
    ∀ cs ce, (∀ q ∈ l, q.1 ≤ q.2) → cs ≤ ce →
      ∀ p ∈ mergeRuns cs ce l, p.1 ≤ p.2 := by
  induction l with
  | nil =>
      intro cs ce _ hce p hp
      rw [mergeRuns_nil] at hp
      simp only [List.mem_singleton] at hp
      simpa [hp]
  | cons q rest ih =>
      intro cs ce hwf hce p hp
      obtain ⟨s, e⟩ := q
      have hse : s ≤ e := hwf (s, e) (List.mem_cons_self _ _)
      have hwf' : ∀ q ∈ rest, q.1 ≤ q.2 := fun q hq => hwf q (List.mem_cons_of_mem _ hq)
      rw [mergeRuns_cons] at hp
      by_cases hs : s ≤ ce
      · rw [if_pos hs] at hp
        exact ih cs (max ce e) hwf' (le_trans hce (le_max_left _ _)) p hp
      · rw [if_neg hs] at hp
        rcases List.mem_cons.mp hp with hpeq | hp
        · simpa [hpeq]
        · exact ih s e hwf' hse p hp

theorem covSorted_eq_sumLen_mergeSorted (l : List Interval) :
    covSorted l = sumLen (mergeSorted l) := by
  cases l with
  | nil => simp [covSorted, mergeSorted, sumLen_nil]
  | cons q rest =>
      obtain ⟨s, e⟩ := q
      show coverLoop s e 0 rest = sumLen (mergeRuns s e rest)
      rw [coverLoop_eq_sumLen_mergeRuns, zero_add]

theorem calculateCoverage_eq_sumLen_merged (l : List Interval) :
    calculateCoverageFromIntervals l = sumLen (mergedIntervals l) :=
  covSorted_eq_sumLen_mergeSorted (sortIntervals l)

/-- C5: for well-formed intervals (end at least start), the coverage value is
the total length of the merged interval sequence obtained by sorting by start
and merging whenever the next start is at most the running end; the merged
sequence covers exactly the union of the inputs, its consecutive members are
strictly separated (touching intervals were merged, degenerate ones
participate), and so the empty list yields 0. -/
theorem coverage_is_merged_union_length (l : List Interval)
    (hwf : ∀ p ∈ l, p.1 ≤ p.2) :
    calculateCoverageFromIntervals l = sumLen (mergedIntervals l) ∧
    unionSet (mergedIntervals l) = unionSet l ∧
    List.Chain' (fun p q : Interval => p.2 < q.1) (mergedIntervals l) ∧
    ∀ p ∈ mergedIntervals l, p.1 ≤ p.2 := by
  refine ⟨calculateCoverage_eq_sumLen_merged l, ?_⟩
  have hperm := sortIntervals_perm l
  have hsorted := sortedByStart_sortIntervals l
  rw [mergedIntervals]
  cases hs : sortIntervals l with
  | nil =>
      have hnil : l = [] := ((hs ▸ hperm).symm).eq_nil
      subst hnil
      simp [mergeSorted, unionSet_nil]
  | cons q rest =>
      obtain ⟨s, e⟩ := q
      rw [hs] at hperm hsorted
      have hwfs : ∀ p ∈ (s, e) :: rest, p.1 ≤ p.2 :=
        fun p hp => hwf p (hperm.subset hp)
      have hse : s ≤ e := hwfs (s, e) (List.mem_cons_self _ _)
      have hwf' : ∀ p ∈ rest, p.1 ≤ p.2 :=
        fun p hp => hwfs p (List.mem_cons_of_mem _ hp)
      have hsorted' : sortedByStart rest := (List.pairwise_cons.mp hsorted).2
      have hhead : ∀ q ∈ rest, s ≤ q.1 := (List.pairwise_cons.mp hsorted).1
      show unionSet (mergeSorted ((s, e) :: rest)) = unionSet l ∧ _ ∧ _
      refine ⟨?_, mergeRuns_chain rest s e, mergeRuns_wf rest s e hwf' hse⟩
      show unionSet (mergeRuns s e rest) = unionSet l
      rw [mergeRuns_union rest s e hwf' hsorted' hhead, ← unionSet_perm hperm,
        unionSet_cons]

/-! Comparison of the merged total with the sum of individual lengths. -/

theorem coverLoop_le_add_sumLen (l : List Interval) :
    ∀ cs ce t, (∀ q ∈ l, q.1 ≤ q.2) →
      coverLoop cs ce t l ≤ t + (ce - cs) + sumLen l := by
  induction l with
  | nil =>
      intro cs ce t _
      rw [coverLoop_nil, sumLen_nil]
      linarith
  | cons q rest ih =>
      intro cs ce t hwf
      obtain ⟨s, e⟩ := q
      have hse : s ≤ e := hwf (s, e) (List.mem_cons_self _ _)
      have hwf' : ∀ q ∈ rest, q.1 ≤ q.2 := fun q hq => hwf q (List.mem_cons_of_mem _ hq)
      rw [coverLoop_cons, sumLen_cons]
      by_cases hs : s ≤ ce
      · rw [if_pos hs]
        have h1 := ih cs (max ce e) t hwf'
        have h2 : max ce e ≤ ce + (e - s) := max_le (by linarith) (by linarith)
        simp only at h1 h2 ⊢
        linarith
      · rw [if_neg hs]
        have h1 := ih s e (t + (ce - cs)) hwf'
        simp only at h1 ⊢
        linarith

theorem overlap_unionSet_iff {P : List Interval} {cs ce s e : ℚ}
    (hU : unionSet P = Set.Ico cs ce) (hcs : cs ≤ s) :
    (∃ p ∈ P, overlap p (s, e)) ↔ s < min ce e := by
  constructor
  · rintro ⟨p, hp, hov⟩
    rw [overlap] at hov
    have h1 : max p.1 s < p.2 := lt_of_lt_of_le hov (min_le_left _ _)
    have hdeg : p.1 < p.2 := lt_of_le_of_lt (le_max_left _ _) h1
    have hsub : Set.Ico p.1 p.2 ⊆ Set.Ico cs ce := hU ▸ Ico_subset_unionSet hp
    have hbounds := (Set.Ico_subset_Ico_iff hdeg).mp hsub
    have hse : s < e :=
      lt_of_le_of_lt (le_max_right p.1 s) (lt_of_lt_of_le hov (min_le_right _ _))
    have hsce : s < ce :=
      lt_of_le_of_lt (le_max_right p.1 s) (lt_of_lt_of_le h1 hbounds.2)
    exact lt_min hsce hse
  · intro hlt
    have hsce : s < ce := lt_of_lt_of_le hlt (min_le_left _ _)
    have hse : s < e := lt_of_lt_of_le hlt (min_le_right _ _)
    have hmem : s ∈ unionSet P := by
      rw [hU]; exact Set.mem_Ico.mpr ⟨hcs, hsce⟩
    obtain ⟨p, hp, hsp⟩ := mem_unionSet.mp hmem
    rw [Set.mem_Ico] at hsp
    refine ⟨p, hp, ?_⟩
    rw [overlap]
    exact lt_min (lt_of_le_of_lt (max_le hsp.1 (le_refl s)) hsp.2)
      (lt_of_le_of_lt (max_le hsp.1 (le_refl s)) hse)

theorem overlap_symm {p q : Interval} (h : overlap p q) : overlap q p := by
  rw [overlap] at h ⊢
  rw [max_comm, min_comm]
  exact h

/-- Characterization of when the merging scan loses nothing against the sum
of raw lengths: exactly when no remaining interval properly overlaps either
the union accumulated so far or another remaining interval. -/
theorem coverLoop_eq_add_iff (l : List Interval) :
    ∀ (P : List Interval) (cs ce t : ℚ),
      (∀ q ∈ l, q.1 ≤ q.2) → sortedByStart l → (∀ q ∈ l, cs ≤ q.1) →
      unionSet P = Set.Ico cs ce →
      (coverLoop cs ce t l = t + (ce - cs) + sumLen l ↔
        (∀ q ∈ l, ∀ p ∈ P, ¬ overlap p q) ∧
          List.Pairwise (fun p q : Interval => ¬ overlap p q) l) := by
  induction l with
  | nil =>
      intro P cs ce t _ _ _ _
      rw [coverLoop_nil, sumLen_nil]
      simp
  | cons q rest ih =>
      intro P cs ce t hwf hsorted hlb hU
      obtain ⟨s, e⟩ := q
      have hse : s ≤ e := hwf (s, e) (List.mem_cons_self _ _)
      have hcs : cs ≤ s := hlb (s, e) (List.mem_cons_self _ _)
      have hwf' : ∀ q ∈ rest, q.1 ≤ q.2 := fun q hq => hwf q (List.mem_cons_of_mem _ hq)
      have hsorted' : sortedByStart rest := (List.pairwise_cons.mp hsorted).2
      have hhead : ∀ q ∈ rest, s ≤ q.1 := (List.pairwise_cons.mp hsorted).1
      rw [coverLoop_cons, sumLen_cons_pair]
      by_cases hs : s ≤ ce
      · rw [if_pos hs]
        have hU' : unionSet (P ++ [(s, e)]) = Set.Ico cs (max ce e) := by
          rw [unionSet_append, hU]
          show Set.Ico cs ce ∪ (Set.Ico s e ∪ ∅) = _
          rw [Set.union_empty, Set.Ico_union_Ico' hs (le_trans hcs hse), min_eq_left hcs]
        have hIH := ih (P ++ [(s, e)]) cs (max ce e) t hwf' hsorted'
          (fun q hq => le_trans hcs (hhead q hq)) hU'
        have hle := coverLoop_le_add_sumLen rest cs (max ce e) t hwf'
        have hminmax : min ce e + max ce e = ce + e := min_add_max ce e
        have hsmin : s ≤ min ce e := le_min hs hse
        have hbridge := overlap_unionSet_iff (e := e) hU hcs
        have hBC_le : t + (max ce e - cs) + sumLen rest
            ≤ t + (ce - cs) + ((e - s) + sumLen rest) := by
          have hmax : max ce e ≤ ce + e - s := by linarith
          linarith
        constructor
        · intro hA
          have hAB : coverLoop cs (max ce e) t rest
              = t + (max ce e - cs) + sumLen rest := by linarith
          have hmin_eq : min ce e = s := by linarith
          have hnoov : ∀ p ∈ P, ¬ overlap p (s, e) := by
            intro p hp hov
            have hlt : s < min ce e := hbridge.mp ⟨p, hp, hov⟩
            linarith
          have hrest := hIH.mp hAB
          refine ⟨?_, ?_⟩
          · intro q hq p hp
            rcases List.mem_cons.mp hq with rfl | hq'
            · exact hnoov p hp
            · exact hrest.1 q hq' p (List.mem_append_left _ hp)
          · rw [List.pairwise_cons]
            exact ⟨fun q hq =>
              hrest.1 q hq (s, e) (List.mem_append_right _ (List.mem_singleton_self _)),
              hrest.2⟩
        · rintro ⟨hcross, hpw⟩
          rw [List.pairwise_cons] at hpw
          have hnoov : ∀ p ∈ P, ¬ overlap p (s, e) :=
            hcross (s, e) (List.mem_cons_self _ _)
          have hmin_le : min ce e ≤ s := by
            by_contra hlt
            push_neg at hlt
            obtain ⟨p, hp, hov⟩ := hbridge.mpr hlt
            exact hnoov p hp hov
          have hAB : coverLoop cs (max ce e) t rest
              = t + (max ce e - cs) + sumLen rest := by
            apply hIH.mpr
            refine ⟨?_, hpw.2⟩
            intro q hq p hp
            rcases List.mem_append.mp hp with hpP | hpq
            · exact hcross q (List.mem_cons_of_mem _ hq) p hpP
            · rw [List.mem_singleton] at hpq
              subst hpq
              exact hpw.1 q hq
          linarith
      · rw [if_neg hs]
        push_neg at hs
        have hU1 : unionSet [(s, e)] = Set.Ico s e := by
          show Set.Ico s e ∪ ∅ = _
          rw [Set.union_empty]
        have hIH := ih [(s, e)] s e (t + (ce - cs)) hwf' hsorted' hhead hU1
        have hcrossP : ∀ q ∈ (s, e) :: rest, ∀ p ∈ P, ¬ overlap p q := by
          intro q hq p hp hov
          have hq1 : cs ≤ q.1 := hlb q hq
          have hq1s : s ≤ q.1 := by
            rcases List.mem_cons.mp hq with rfl | hq'
            · exact le_refl _
            · exact hhead q hq'
          have hlt : q.1 < min ce q.2 :=
            (overlap_unionSet_iff (s := q.1) (e := q.2) hU hq1).mp ⟨p, hp, hov⟩
          have : q.1 < ce := lt_of_lt_of_le hlt (min_le_left _ _)
          linarith
        have harith : t + (ce - cs) + ((e - s) + sumLen rest)
            = (t + (ce - cs)) + (e - s) + sumLen rest := by ring
        rw [harith, hIH]
        constructor
        · rintro ⟨hq, hpw⟩
          refine ⟨hcrossP, ?_⟩
          rw [List.pairwise_cons]
          exact ⟨fun q hqr => hq q hqr (s, e) (List.mem_singleton_self _), hpw⟩
        · rintro ⟨_, hpw⟩
          rw [List.pairwise_cons] at hpw
          refine ⟨?_, hpw.2⟩
          intro q hqr p hp
          rw [List.mem_singleton] at hp
          subst hp
          exact hpw.1 q hqr

theorem coverage_le_sumLen (l : List Interval) (hwf : ∀ p ∈ l, p.1 ≤ p.2) :
    calculateCoverageFromIntervals l ≤ sumLen l := by
  have hperm := sortIntervals_perm l
  rw [calculateCoverageFromIntervals, ← sumLen_perm hperm]
  cases hsl : sortIntervals l with
  | nil => simp [covSorted, sumLen_nil]
  | cons q rest =>
      rw [hsl] at hperm
      obtain ⟨s, e⟩ := q
      have hwf' : ∀ p ∈ rest, p.1 ≤ p.2 :=
        fun p hp => hwf p (hperm.subset (List.mem_cons_of_mem _ hp))
      show coverLoop s e 0 rest ≤ sumLen ((s, e) :: rest)
      rw [sumLen_cons_pair]
      have h := coverLoop_le_add_sumLen rest s e 0 hwf'
      linarith

theorem coverage_eq_sumLen_iff (l : List Interval) (hwf : ∀ p ∈ l, p.1 ≤ p.2) :
    calculateCoverageFromIntervals l = sumLen l ↔
      List.Pairwise (fun p q : Interval => ¬ overlap p q) l := by
  have hperm := sortIntervals_perm l
  have hsorted := sortedByStart_sortIntervals l
  have hpairs : List.Pairwise (fun p q : Interval => ¬ overlap p q) (sortIntervals l) ↔
      List.Pairwise (fun p q : Interval => ¬ overlap p q) l :=
    hperm.pairwise_iff fun h hov => h (overlap_symm hov)
  rw [calculateCoverageFromIntervals, ← sumLen_perm hperm, ← hpairs]
  cases hsl : sortIntervals l with
  | nil => simp [covSorted, sumLen_nil]
  | cons q rest =>
      rw [hsl] at hperm hsorted
      obtain ⟨s, e⟩ := q
      have hwfs : ∀ p ∈ (s, e) :: rest, p.1 ≤ p.2 := fun p hp => hwf p (hperm.subset hp)
      have hse : s ≤ e := hwfs (s, e) (List.mem_cons_self _ _)
      have hwf' : ∀ p ∈ rest, p.1 ≤ p.2 := fun p hp => hwfs p (List.mem_cons_of_mem _ hp)
      have hsorted' : sortedByStart rest := (List.pairwise_cons.mp hsorted).2
      have hhead : ∀ q ∈ rest, s ≤ q.1 := (List.pairwise_cons.mp hsorted).1
      have hU1 : unionSet [(s, e)] = Set.Ico s e := by
        show Set.Ico s e ∪ ∅ = _
        rw [Set.union_empty]
      have hmaster := coverLoop_eq_add_iff rest [(s, e)] s e 0 hwf' hsorted' hhead hU1
      show coverLoop s e 0 rest = sumLen ((s, e) :: rest) ↔ _
      rw [sumLen_cons_pair, List.pairwise_cons]
      constructor
      · intro h
        have hres := hmaster.mp (by linarith)
        exact ⟨fun q hq => hres.1 q hq (s, e) (List.mem_singleton_self _), hres.2⟩
      · rintro ⟨h1, h2⟩
        have hres : coverLoop s e 0 rest = 0 + (e - s) + sumLen rest := by
          apply hmaster.mpr
          refine ⟨?_, h2⟩
          intro q hq p hp
          rw [List.mem_singleton] at hp
          subst hp
          exact h1 q hq
        linarith

/-- C6 (amended): for intervals with end at least start, the merged total
returned by calculateCoverageFromIntervals is at most the sum of the
individual interval lengths, and equality holds iff no two of the input
intervals properly overlap; merely touching intervals still give equality. -/
theorem coverage_le_sum_eq_iff_no_overlap (l : List Interval)
    (hwf : ∀ p ∈ l, p.1 ≤ p.2) :
    calculateCoverageFromIntervals l ≤ sumLen l ∧
    (calculateCoverageFromIntervals l = sumLen l ↔
      List.Pairwise (fun p q : Interval => ¬ overlap p q) l) :=
  ⟨coverage_le_sumLen l hwf, coverage_eq_sumLen_iff l hwf⟩

theorem coverage_le_sum_eq_iff_no_overlap_witness :
    (∀ p ∈ ([((0:ℚ), 1), (1, 2)] : List Interval), p.1 ≤ p.2) ∧
    (calculateCoverageFromIntervals [((0:ℚ), 1), (1, 2)] ≤
        sumLen [((0:ℚ), 1), (1, 2)] ∧
      (calculateCoverageFromIntervals [((0:ℚ), 1), (1, 2)] =
          sumLen [((0:ℚ), 1), (1, 2)] ↔
        List.Pairwise (fun p q : Interval => ¬ overlap p q)
          [((0:ℚ), 1), (1, 2)])) := by
  have hwf : ∀ p ∈ ([((0:ℚ), 1), (1, 2)] : List Interval), p.1 ≤ p.2 := by
    intro p hp
    fin_cases hp <;> norm_num
  exact ⟨hwf, coverage_le_sum_eq_iff_no_overlap _ hwf⟩

theorem sortIntervals_touching_pair :
    sortIntervals [((0:ℚ), 1), (1, 2)] = [((0:ℚ), 1), (1, 2)] := by
  rw [sortIntervals]
  apply List.mergeSort_of_sorted
  constructor
  · intro b hb
    simp only [List.mem_singleton] at hb
    subst hb
    norm_num
  · simp

theorem coverage_touching_pair :
    calculateCoverageFromIntervals [((0:ℚ), 1), (1, 2)] = 2 := by
  rw [calculateCoverageFromIntervals, sortIntervals_touching_pair]
  show coverLoop 0 1 0 [((1:ℚ), 2)] = 2
  rw [coverLoop_cons, if_pos (by norm_num : (1:ℚ) ≤ 1), coverLoop_nil]
  norm_num

theorem sumLen_touching_pair : sumLen [((0:ℚ), 1), (1, 2)] = 2 := by
  simp [sumLen]

/-- C6 counterexample: the two well-formed intervals [0,1) and [1,2) touch,
yet the merged total equals the sum of the individual lengths, so equality
does not imply that no two intervals overlap or touch. -/
theorem coverage_touching_equality_counterexample :
    calculateCoverageFromIntervals [((0:ℚ), 1), (1, 2)] =
        sumLen [((0:ℚ), 1), (1, 2)] ∧
    overlapOrTouch ((0:ℚ), 1) ((1:ℚ), 2) ∧
    ¬ (calculateCoverageFromIntervals [((0:ℚ), 1), (1, 2)] =
          sumLen [((0:ℚ), 1), (1, 2)] ↔
        List.Pairwise (fun p q : Interval => ¬ overlapOrTouch p q)
          [((0:ℚ), 1), (1, 2)]) := by
  have heq : calculateCoverageFromIntervals [((0:ℚ), 1), (1, 2)] =
      sumLen [((0:ℚ), 1), (1, 2)] := by
    rw [coverage_touching_pair, sumLen_touching_pair]
  have htouch : overlapOrTouch ((0:ℚ), 1) ((1:ℚ), 2) := by
    rw [overlapOrTouch]
    norm_num
  refine ⟨heq, htouch, ?_⟩
  intro hiff
  have hpw := hiff.mp heq
  rw [List.pairwise_cons] at hpw
  exact hpw.1 ((1:ℚ), 2) (List.mem_singleton_self _) htouch

theorem coverage_is_merged_union_length_witness :
    (∀ p ∈ ([((0:ℚ), 2), (2, 3), (5, 5)] : List Interval), p.1 ≤ p.2) ∧
    (calculateCoverageFromIntervals [((0:ℚ), 2), (2, 3), (5, 5)] =
        sumLen (mergedIntervals [((0:ℚ), 2), (2, 3), (5, 5)]) ∧
      unionSet (mergedIntervals [((0:ℚ), 2), (2, 3), (5, 5)]) =
        unionSet [((0:ℚ), 2), (2, 3), (5, 5)] ∧
      List.Chain' (fun p q : Interval => p.2 < q.1)
        (mergedIntervals [((0:ℚ), 2), (2, 3), (5, 5)]) ∧
      ∀ p ∈ mergedIntervals [((0:ℚ), 2), (2, 3), (5, 5)], p.1 ≤ p.2) := by
  have hwf : ∀ p ∈ ([((0:ℚ), 2), (2, 3), (5, 5)] : List Interval), p.1 ≤ p.2 := by
    intro p hp
    fin_cases hp <;> norm_num
  exact ⟨hwf, coverage_is_merged_union_length _ hwf⟩

/-! Bounding coverage by the maximal end value, for the comparison with
maxVerifiedSecond. -/

theorem intervalFoldMax_mono (l : List Interval) :
    ∀ c d : ℚ, c ≤ d →
      l.foldl (fun acc q => max acc q.2) c ≤ l.foldl (fun acc q => max acc q.2) d := by
  induction l with
  | nil => intro c d h; exact h
  | cons q rest ih =>
      intro c d h
      exact ih _ _ (max_le_max_right q.2 h)

theorem le_intervalFoldMax (l : List Interval) :
    ∀ c : ℚ, c ≤ l.foldl (fun acc q => max acc q.2) c := by
  induction l with
  | nil => intro c; exact le_refl c
  | cons q rest ih =>
      intro c
      exact le_trans (le_max_left c q.2) (ih (max c q.2))

theorem intervalFoldMax_perm {l l' : List Interval} (h : l.Perm l') (c : ℚ) :
    l.foldl (fun acc q => max acc q.2) c = l'.foldl (fun acc q => max acc q.2) c :=
  @List.Perm.foldl_eq _ _ (fun acc q => max acc q.2) _ _
    ⟨fun b a₁ a₂ => by rw [max_assoc, max_comm a₁.2 a₂.2, ← max_assoc]⟩ h c

theorem coverLoop_le_foldl_max (l : List Interval) :
    ∀ cs ce t, sortedByStart l → (∀ q ∈ l, cs ≤ q.1) →
      coverLoop cs ce t l ≤ t + l.foldl (fun acc q => max acc q.2) ce - cs := by
  induction l with
  | nil =>
      intro cs ce t _ _
      rw [coverLoop_nil]
      show t + (ce - cs) ≤ t + ce - cs
      linarith
  | cons q rest ih =>
      intro cs ce t hsorted hlb
      obtain ⟨s, e⟩ := q
      have hcs : cs ≤ s := hlb (s, e) (List.mem_cons_self _ _)
      have hsorted' : sortedByStart rest := (List.pairwise_cons.mp hsorted).2
      have hhead : ∀ q ∈ rest, s ≤ q.1 := (List.pairwise_cons.mp hsorted).1
      rw [coverLoop_cons, List.foldl_cons]
      by_cases hs : s ≤ ce
      · rw [if_pos hs]
        have h1 := ih cs (max ce e) t hsorted'
          (fun q hq => le_trans hcs (hhead q hq))
        simpa using h1
      · rw [if_neg hs]
        push_neg at hs
        have h1 := ih s e (t + (ce - cs)) hsorted' hhead
        have h2 : rest.foldl (fun acc q => max acc q.2) e ≤
            rest.foldl (fun acc q => max acc q.2) (max ce e) :=
          intervalFoldMax_mono rest e (max ce e) (le_max_right ce e)
        simp only at h1 h2 ⊢
        linarith

theorem coverage_le_foldl_max (l : List Interval)
    (hstart : ∀ q ∈ l, 0 ≤ q.1) :
    calculateCoverageFromIntervals l ≤ l.foldl (fun acc q => max acc q.2) 0 := by
  have hperm := sortIntervals_perm l
  have hsorted := sortedByStart_sortIntervals l
  rw [calculateCoverageFromIntervals, ← intervalFoldMax_perm hperm]
  cases hsl : sortIntervals l with
  | nil =>
      simp only [covSorted, List.foldl_nil]
      exact le_refl 0
  | cons q rest =>
      rw [hsl] at hperm hsorted
      obtain ⟨s, e⟩ := q
      have hs0 : 0 ≤ s := hstart (s, e) (hperm.subset (List.mem_cons_self _ _))
      have hsorted' : sortedByStart rest := (List.pairwise_cons.mp hsorted).2
      have hhead : ∀ q ∈ rest, s ≤ q.1 := (List.pairwise_cons.mp hsorted).1
      have h1 := coverLoop_le_foldl_max rest s e 0 hsorted' hhead
      have h2 : rest.foldl (fun acc q => max acc q.2) e ≤
          rest.foldl (fun acc q => max acc q.2) (max 0 e) :=
        intervalFoldMax_mono rest e (max 0 e) (le_max_right 0 e)
      show coverLoop s e 0 rest ≤ ((s, e) :: rest).foldl (fun acc q => max acc q.2) 0
      rw [List.foldl_cons]
      simp only at h1 h2 ⊢
      linarith

/-! Projections of calculateProgressFromSegments. -/

theorem calculateProgress_coverageSeconds (segments : List Segment) :
    (calculateProgressFromSegments segments).coverageSeconds =
      calculateCoverageFromIntervals
        (segments.map fun seg => (seg.startSecond, seg.endSecond)) := rfl

theorem calculateProgress_maxVerifiedSecond (segments : List Segment) :
    (calculateProgressFromSegments segments).maxVerifiedSecond =
      segments.foldl (fun acc seg => max acc seg.endSecond) 0 := rfl

theorem calculateProgress_totalEffectiveSeconds (segments : List Segment) :
    (calculateProgressFromSegments segments).totalEffectiveSeconds =
      segments.foldl
        (fun acc seg => acc + (seg.endSecond - seg.startSecond) / seg.speed) 0 := rfl

theorem calculateProgress_skipEvents (segments : List Segment) :
    (calculateProgressFromSegments segments).skipEvents = 0 := rfl

theorem calculateProgress_speedBreakdown (segments : List Segment) :
    (calculateProgressFromSegments segments).speedBreakdown =
      segments.foldl
        (fun acc seg =>
          Function.update acc seg.speed (acc seg.speed + (seg.endSecond - seg.startSecond)))
        (fun _ => 0) := rfl

/-- C7: for every list of segments whose start positions are nonnegative (the
request validation layer rejects negative startSecond before the service sees
it), the computed summary satisfies coverageSeconds at most
maxVerifiedSecond. -/
theorem coverageSeconds_le_maxVerifiedSecond (segments : List Segment)
    (hstart : ∀ seg ∈ segments, 0 ≤ seg.startSecond) :
    (calculateProgressFromSegments segments).coverageSeconds ≤
      (calculateProgressFromSegments segments).maxVerifiedSecond := by
  rw [calculateProgress_coverageSeconds, calculateProgress_maxVerifiedSecond]
  have h1 := coverage_le_foldl_max
    (segments.map fun seg => (seg.startSecond, seg.endSecond))
    (by
      intro q hq
      obtain ⟨g, hg, rfl⟩ := List.mem_map.mp hq
      exact hstart g hg)
  rw [List.foldl_map] at h1
  exact h1

theorem coverageSeconds_le_maxVerifiedSecond_witness :
    (∀ seg ∈ [Segment.mk 0 10 1, Segment.mk 5 7 2], 0 ≤ seg.startSecond) ∧
    (calculateProgressFromSegments [Segment.mk 0 10 1, Segment.mk 5 7 2]).coverageSeconds ≤
      (calculateProgressFromSegments [Segment.mk 0 10 1, Segment.mk 5 7 2]).maxVerifiedSecond := by
  have hstart : ∀ seg ∈ [Segment.mk 0 10 1, Segment.mk 5 7 2], 0 ≤ seg.startSecond := by
    intro seg hs
    fin_cases hs <;> norm_num
  exact ⟨hstart, coverageSeconds_le_maxVerifiedSecond _ hstart⟩

/-! Characterization of the remaining summary fields, for the
ProgressAggregator contract. -/

theorem foldl_add_eq_sum (f : Segment → ℚ) (l : List Segment) :
    ∀ init : ℚ, l.foldl (fun acc g => acc + f g) init = init + (l.map f).sum := by
  induction l with
  | nil => intro init; simp
  | cons g rest ih =>
      intro init
      rw [List.foldl_cons, ih, List.map_cons, List.sum_cons]
      ring

theorem segFoldMax_le (l : List Segment) :
    ∀ c : ℚ, c ≤ l.foldl (fun acc g => max acc g.endSecond) c := by
  induction l with
  | nil => intro c; exact le_refl c
  | cons g rest ih =>
      intro c
      exact le_trans (le_max_left c g.endSecond) (ih (max c g.endSecond))

theorem segFoldMax_mem_le (l : List Segment) :
    ∀ c : ℚ, ∀ g ∈ l, g.endSecond ≤ l.foldl (fun acc s => max acc s.endSecond) c := by
  induction l with
  | nil => intro c g hg; cases hg
  | cons x rest ih =>
      intro c g hg
      rcases List.mem_cons.mp hg with rfl | hg'
      · exact le_trans (le_max_right c g.endSecond) (segFoldMax_le rest _)
      · exact ih _ g hg'

theorem segFoldMax_cases (l : List Segment) :
    ∀ c : ℚ, l.foldl (fun acc s => max acc s.endSecond) c = c ∨
      ∃ g ∈ l, l.foldl (fun acc s => max acc s.endSecond) c = g.endSecond := by
  induction l with
  | nil => intro c; exact Or.inl rfl
  | cons x rest ih =>
      intro c
      rw [List.foldl_cons]
      rcases ih (max c x.endSecond) with h | ⟨g, hg, hgeq⟩
      · rcases max_choice c x.endSecond with hm | hm
        · exact Or.inl (h.trans hm)
        · exact Or.inr ⟨x, List.mem_cons_self _ _, h.trans hm⟩
      · exact Or.inr ⟨g, List.mem_cons_of_mem _ hg, hgeq⟩

theorem speedBreakdown_foldl_spec (l : List Segment) :
    ∀ (m : ℚ → ℚ) (s : ℚ),
      (l.foldl
        (fun acc seg =>
          Function.update acc seg.speed (acc seg.speed + (seg.endSecond - seg.startSecond)))
        m) s =
      m s + ((l.filter fun seg => seg.speed == s).map
        fun seg => seg.endSecond - seg.startSecond).sum := by
  induction l with
  | nil => intro m s; simp
  | cons g rest ih =>
      intro m s
      rw [List.foldl_cons, ih, List.filter_cons]
      by_cases hgs : g.speed = s
      · rw [if_pos (by simp [hgs]), List.map_cons, List.sum_cons,
          Function.update_apply]
        rw [if_pos hgs.symm, hgs]
        ring
      · rw [if_neg (by simp [hgs]), Function.update_apply,
          if_neg (fun h => hgs h.symm)]

/-- C4: the computed summary has totalEffectiveSeconds equal to the plain sum
of per-segment duration divided by speed even for overlapping segments;
maxVerifiedSecond is an upper bound of all segment ends, is 0 for the empty
list, and is attained by some segment end for nonempty lists with
nonnegative ends (the validation layer rejects negative endSecond);
speedBreakdown maps each speed to the summed raw duration of the segments at
exactly that speed; and the empty list yields the all-zero summary. -/
theorem progress_from_segments_spec (segments : List Segment) :
    (calculateProgressFromSegments segments).totalEffectiveSeconds =
      (segments.map fun seg => (seg.endSecond - seg.startSecond) / seg.speed).sum ∧
    (∀ seg ∈ segments,
      seg.endSecond ≤ (calculateProgressFromSegments segments).maxVerifiedSecond) ∧
    (segments = [] → (calculateProgressFromSegments segments).maxVerifiedSecond = 0) ∧
    ((∀ seg ∈ segments, 0 ≤ seg.endSecond) → segments ≠ [] →
      ∃ seg ∈ segments,
        (calculateProgressFromSegments segments).maxVerifiedSecond = seg.endSecond) ∧
    (∀ s : ℚ, (calculateProgressFromSegments segments).speedBreakdown s =
      ((segments.filter fun seg => seg.speed == s).map
        fun seg => seg.endSecond - seg.startSecond).sum) ∧
    calculateProgressFromSegments ([] : List Segment) =
      ⟨0, 0, 0, 0, fun _ => 0⟩ := by
  refine ⟨?_, ?_, ?_, ?_, ?_, ?_⟩
  · rw [calculateProgress_totalEffectiveSeconds, foldl_add_eq_sum, zero_add]
  · intro seg hs
    rw [calculateProgress_maxVerifiedSecond]
    exact segFoldMax_mem_le segments 0 seg hs
  · intro h
    subst h
    rfl
  · intro hend hne
    rw [calculateProgress_maxVerifiedSecond]
    rcases segFoldMax_cases segments 0 with h | ⟨g, hg, hgeq⟩
    · obtain ⟨g, hg⟩ := List.exists_mem_of_ne_nil segments hne
      refine ⟨g, hg, ?_⟩
      have h1 : g.endSecond ≤ 0 := h ▸ segFoldMax_mem_le segments 0 g hg
      have h2 : g.endSecond = 0 := le_antisymm h1 (hend g hg)
      rw [h, h2]
    · exact ⟨g, hg, hgeq⟩
  · intro s
    rw [calculateProgress_speedBreakdown, speedBreakdown_foldl_spec, zero_add]
  · have hcov : calculateCoverageFromIntervals ([] : List Interval) = 0 := by
      rw [calculateCoverageFromIntervals, sortIntervals, List.mergeSort_nil]
      rfl
    have hbase : calculateProgressFromSegments ([] : List Segment) =
        ⟨0, calculateCoverageFromIntervals [], 0, 0, fun _ => 0⟩ := rfl
    rw [hbase, hcov]

theorem progress_from_segments_spec_witness :
    ∃ seg ∈ [Segment.mk 0 4 2],
      (calculateProgressFromSegments [Segment.mk 0 4 2]).maxVerifiedSecond =
        seg.endSecond := by
  have hend : ∀ seg ∈ [Segment.mk 0 4 2], (0:ℚ) ≤ seg.endSecond := by
    intro seg hs
    fin_cases hs
    norm_num
  exact (progress_from_segments_spec [Segment.mk 0 4 2]).2.2.2.1 hend (by simp)

/-! Order independence of the coverage scan on well-formed intervals. -/

theorem coverLoop_swap (cs ce t : ℚ) (x y : Interval) (rest : List Interval)
    (hxy : x.1 = y.1) (hx : x.1 ≤ x.2) (hy : y.1 ≤ y.2) :
    coverLoop cs ce t (x :: y :: rest) = coverLoop cs ce t (y :: x :: rest) := by
  obtain ⟨xs, xe⟩ := x
  obtain ⟨ys, ye⟩ := y
  simp only at hxy hx hy
  subst hxy
  by_cases hs : xs ≤ ce
  · have hL : coverLoop cs ce t ((xs, xe) :: (xs, ye) :: rest) =
        coverLoop cs (max (max ce xe) ye) t rest := by
      rw [coverLoop_cons, if_pos hs, coverLoop_cons,
        if_pos (le_trans hs (le_max_left ce xe))]
    have hR : coverLoop cs ce t ((xs, ye) :: (xs, xe) :: rest) =
        coverLoop cs (max (max ce ye) xe) t rest := by
      rw [coverLoop_cons, if_pos hs, coverLoop_cons,
        if_pos (le_trans hs (le_max_left ce ye))]
    rw [hL, hR, max_assoc, max_comm xe ye, ← max_assoc]
  · have hL : coverLoop cs ce t ((xs, xe) :: (xs, ye) :: rest) =
        coverLoop xs (max xe ye) (t + (ce - cs)) rest := by
      rw [coverLoop_cons, if_neg hs, coverLoop_cons, if_pos hx]
    have hR : coverLoop cs ce t ((xs, ye) :: (xs, xe) :: rest) =
        coverLoop xs (max ye xe) (t + (ce - cs)) rest := by
      rw [coverLoop_cons, if_neg hs, coverLoop_cons, if_pos hy]
    rw [hL, hR, max_comm xe ye]

theorem coverLoop_bubble (u : List Interval) :
    ∀ (cs ce t : ℚ) (a : Interval) (v : List Interval),
      (∀ x ∈ u, x.1 = a.1 ∧ x.1 ≤ x.2) → a.1 ≤ a.2 →
      coverLoop cs ce t (u ++ a :: v) = coverLoop cs ce t (a :: (u ++ v)) := by
  induction u with
  | nil => intro cs ce t a v _ _; rfl
  | cons x u2 ih =>
      intro cs ce t a v hu ha
      have hx := hu x (List.mem_cons_self _ _)
      have hu2 : ∀ z ∈ u2, z.1 = a.1 ∧ z.1 ≤ z.2 :=
        fun z hz => hu z (List.mem_cons_of_mem _ hz)
      have hswap := coverLoop_swap cs ce t x a (u2 ++ v) hx.1 hx.2 ha
      rw [show (x :: u2) ++ a :: v = x :: (u2 ++ a :: v) from rfl,
        show a :: ((x :: u2) ++ v) = a :: x :: (u2 ++ v) from rfl, ← hswap]
      obtain ⟨xs, xe⟩ := x
      by_cases hs : xs ≤ ce
      · have hL : coverLoop cs ce t ((xs, xe) :: (u2 ++ a :: v)) =
            coverLoop cs (max ce xe) t (u2 ++ a :: v) := by
          rw [coverLoop_cons, if_pos hs]
        have hR : coverLoop cs ce t ((xs, xe) :: (a :: (u2 ++ v))) =
            coverLoop cs (max ce xe) t (a :: (u2 ++ v)) := by
          rw [coverLoop_cons, if_pos hs]
        rw [hL, hR]
        exact ih cs (max ce xe) t a v hu2 ha
      · have hL : coverLoop cs ce t ((xs, xe) :: (u2 ++ a :: v)) =
            coverLoop xs xe (t + (ce - cs)) (u2 ++ a :: v) := by
          rw [coverLoop_cons, if_neg hs]
        have hR : coverLoop cs ce t ((xs, xe) :: (a :: (u2 ++ v))) =
            coverLoop xs xe (t + (ce - cs)) (a :: (u2 ++ v)) := by
          rw [coverLoop_cons, if_neg hs]
        rw [hL, hR]
        exact ih xs xe (t + (ce - cs)) a v hu2 ha

theorem coverLoop_perm_sorted (l₁ : List Interval) :
    ∀ l₂ : List Interval, l₁.Perm l₂ → sortedByStart l₁ → sortedByStart l₂ →
      (∀ q ∈ l₁, q.1 ≤ q.2) →
      ∀ cs ce t, coverLoop cs ce t l₁ = coverLoop cs ce t l₂ := by
  induction l₁ with
  | nil =>
      intro l₂ hperm _ _ _ cs ce t
      rw [hperm.symm.eq_nil]
  | cons a t₁ ih =>
      intro l₂ hperm hs1 hs2 hwf cs ce t
      have ha : a ∈ l₂ := hperm.subset (List.mem_cons_self _ _)
      obtain ⟨u, v, rfl⟩ := List.append_of_mem ha
      have hmemu : ∀ x ∈ u, x ∈ a :: t₁ := by
        intro x hx
        exact hperm.symm.subset (List.mem_append_left _ hx)
      have hxa : ∀ x ∈ u, x.1 = a.1 ∧ x.1 ≤ x.2 := by
        intro x hx
        have h1 : x.1 ≤ a.1 := by
          have := (List.pairwise_append.mp hs2).2.2 x hx a (List.mem_cons_self _ _)
          exact this
        have h2 : a.1 ≤ x.1 := by
          rcases List.mem_cons.mp (hmemu x hx) with rfl | hx'
          · exact le_refl _
          · exact (List.pairwise_cons.mp hs1).1 x hx'
        exact ⟨le_antisymm h1 h2, hwf x (hperm.symm.subset (List.mem_append_left _ hx))⟩
      have hawf : a.1 ≤ a.2 := hwf a (List.mem_cons_self _ _)
      rw [coverLoop_bubble u cs ce t a v hxa hawf]
      have hperm2 : t₁.Perm (u ++ v) := by
        have h1 : (a :: t₁).Perm (a :: (u ++ v)) :=
          hperm.trans List.perm_middle
        exact h1.cons_inv
      have hs1' : sortedByStart t₁ := (List.pairwise_cons.mp hs1).2
      have hs2' : sortedByStart (u ++ v) := by
        have hsub : (u ++ v).Sublist (u ++ a :: v) :=
          List.Sublist.append_left (List.sublist_cons_self a v) u
        exact List.Pairwise.sublist hsub hs2
      have hwf' : ∀ q ∈ t₁, q.1 ≤ q.2 := fun q hq => hwf q (List.mem_cons_of_mem _ hq)
      obtain ⟨as, ae⟩ := a
      by_cases hs : as ≤ ce
      · have hL : coverLoop cs ce t ((as, ae) :: t₁) =
            coverLoop cs (max ce ae) t t₁ := by
          rw [coverLoop_cons, if_pos hs]
        have hR : coverLoop cs ce t ((as, ae) :: (u ++ v)) =
            coverLoop cs (max ce ae) t (u ++ v) := by
          rw [coverLoop_cons, if_pos hs]
        rw [hL, hR]
        exact ih (u ++ v) hperm2 hs1' hs2' hwf' cs (max ce ae) t
      · have hL : coverLoop cs ce t ((as, ae) :: t₁) =
            coverLoop as ae (t + (ce - cs)) t₁ := by
          rw [coverLoop_cons, if_neg hs]
        have hR : coverLoop cs ce t ((as, ae) :: (u ++ v)) =
            coverLoop as ae (t + (ce - cs)) (u ++ v) := by
          rw [coverLoop_cons, if_neg hs]
        rw [hL, hR]
        exact ih (u ++ v) hperm2 hs1' hs2' hwf' as ae (t + (ce - cs))

theorem covSorted_cons (a : Interval) (l : List Interval) :
    covSorted (a :: l) = coverLoop a.1 a.2 0 l := by
  obtain ⟨s, e⟩ := a
  rfl

theorem covSorted_eq_coverLoop_self (a : Interval) (l : List Interval)
    (ha : a.1 ≤ a.2) :
    coverLoop a.1 a.1 0 (a :: l) = covSorted (a :: l) := by
  obtain ⟨s, e⟩ := a
  simp only at ha
  rw [covSorted_cons, coverLoop_cons]
  simp only
  rw [if_pos (le_refl s), max_eq_right ha]

theorem covSorted_perm (l₁ l₂ : List Interval) (hperm : l₁.Perm l₂)
    (hs1 : sortedByStart l₁) (hs2 : sortedByStart l₂)
    (hwf : ∀ q ∈ l₁, q.1 ≤ q.2) :
    covSorted l₁ = covSorted l₂ := by
  cases l₁ with
  | nil =>
      rw [hperm.symm.eq_nil]
  | cons a t₁ =>
      cases l₂ with
      | nil => exact absurd hperm.eq_nil (by simp)
      | cons b t₂ =>
          have hab : a.1 = b.1 := by
            have h1 : a.1 ≤ b.1 := by
              rcases List.mem_cons.mp (hperm.symm.subset (List.mem_cons_self b t₂))
                with rfl | hb'
              · exact le_refl _
              · exact (List.pairwise_cons.mp hs1).1 b hb'
            have h2 : b.1 ≤ a.1 := by
              rcases List.mem_cons.mp (hperm.subset (List.mem_cons_self a t₁))
                with heq | ha'
              · rw [heq]
              · exact (List.pairwise_cons.mp hs2).1 a ha'
            exact le_antisymm h1 h2
          have hawf : a.1 ≤ a.2 := hwf a (List.mem_cons_self _ _)
          have hbwf : b.1 ≤ b.2 := hwf b (hperm.symm.subset (List.mem_cons_self _ _))
          rw [← covSorted_eq_coverLoop_self a t₁ hawf,
            ← covSorted_eq_coverLoop_self b t₂ hbwf]
          rw [← hab]
          exact coverLoop_perm_sorted (a :: t₁) (b :: t₂) hperm hs1 hs2 hwf a.1 a.1 0

theorem coverage_perm {l₁ l₂ : List Interval} (hperm : l₁.Perm l₂)
    (hwf : ∀ q ∈ l₁, q.1 ≤ q.2) :
    calculateCoverageFromIntervals l₁ = calculateCoverageFromIntervals l₂ := by
  rw [calculateCoverageFromIntervals, calculateCoverageFromIntervals]
  apply covSorted_perm
  · exact (sortIntervals_perm l₁).trans (hperm.trans (sortIntervals_perm l₂).symm)
  · exact sortedByStart_sortIntervals l₁
  · exact sortedByStart_sortIntervals l₂
  · exact fun q hq => hwf q ((sortIntervals_perm l₁).subset hq)

theorem progressSummary_ext {a b : ProgressSummary}
    (h1 : a.totalEffectiveSeconds = b.totalEffectiveSeconds)
    (h2 : a.coverageSeconds = b.coverageSeconds)
    (h3 : a.maxVerifiedSecond = b.maxVerifiedSecond)
    (h4 : a.skipEvents = b.skipEvents)
    (h5 : a.speedBreakdown = b.speedBreakdown) : a = b := by
  cases a
  cases b
  simp only [ProgressSummary.mk.injEq]
  exact ⟨h1, h2, h3, h4, h5⟩

theorem segFoldMax_perm {l l' : List Segment} (h : l.Perm l') (c : ℚ) :
    l.foldl (fun acc g => max acc g.endSecond) c =
      l'.foldl (fun acc g => max acc g.endSecond) c :=
  @List.Perm.foldl_eq _ _ (fun acc g => max acc g.endSecond) _ _
    ⟨fun b a₁ a₂ => by
      rw [max_assoc, max_comm a₁.endSecond a₂.endSecond, ← max_assoc]⟩ h c

/-- C8: for well-formed segments (endSecond at least startSecond, as the
validation layer guarantees), calculateProgressFromSegments is invariant
under permutation of the input list: every field of the summary, including
the speed breakdown, is identical. -/
theorem progress_order_independent (l l' : List Segment) (hperm : l.Perm l')
    (hwf : ∀ seg ∈ l, seg.startSecond ≤ seg.endSecond) :
    calculateProgressFromSegments l = calculateProgressFromSegments l' := by
  apply progressSummary_ext
  · rw [calculateProgress_totalEffectiveSeconds, calculateProgress_totalEffectiveSeconds,
      foldl_add_eq_sum, foldl_add_eq_sum,
      (hperm.map fun seg => (seg.endSecond - seg.startSecond) / seg.speed).sum_eq]
  · rw [calculateProgress_coverageSeconds, calculateProgress_coverageSeconds]
    apply coverage_perm (hperm.map fun seg => (seg.startSecond, seg.endSecond))
    intro q hq
    obtain ⟨g, hg, rfl⟩ := List.mem_map.mp hq
    exact hwf g hg
  · rw [calculateProgress_maxVerifiedSecond, calculateProgress_maxVerifiedSecond]
    exact segFoldMax_perm hperm 0
  · rw [calculateProgress_skipEvents, calculateProgress_skipEvents]
  · funext s
    rw [calculateProgress_speedBreakdown, calculateProgress_speedBreakdown,
      speedBreakdown_foldl_spec, speedBreakdown_foldl_spec,
      (((hperm.filter fun seg => seg.speed == s)).map
        fun seg => seg.endSecond - seg.startSecond).sum_eq]

theorem progress_order_independent_witness :
    ([Segment.mk 0 10 1, Segment.mk 5 7 2].Perm
        [Segment.mk 5 7 2, Segment.mk 0 10 1]) ∧
    (∀ seg ∈ [Segment.mk 0 10 1, Segment.mk 5 7 2],
        seg.startSecond ≤ seg.endSecond) ∧
    calculateProgressFromSegments [Segment.mk 0 10 1, Segment.mk 5 7 2] =
      calculateProgressFromSegments [Segment.mk 5 7 2, Segment.mk 0 10 1] := by
  have hperm : [Segment.mk 0 10 1, Segment.mk 5 7 2].Perm
      [Segment.mk 5 7 2, Segment.mk 0 10 1] :=
    List.Perm.swap (Segment.mk 5 7 2) (Segment.mk 0 10 1) []
  have hwf : ∀ seg ∈ [Segment.mk 0 10 1, Segment.mk 5 7 2],
      seg.startSecond ≤ seg.endSecond := by
    intro seg hs
    fin_cases hs <;> norm_num
  exact ⟨hperm, hwf, progress_order_independent _ _ hperm hwf⟩

/-! Seek events and skip classification. -/

/-- C3 counterexample: a disallowed backward seek from second 100 to second
10 is stored with isSkip true, because skipDistance is the absolute jump
distance and the sign of the jump is never inspected. -/
theorem backward_seek_stored_as_skip :
    (recordSeekEvent ⟨[], [], [], []⟩ 0
        ⟨100, 10, false, "seek"⟩).seekEvents =
      [mkSeekEventRow 0 ⟨100, 10, false, "seek"⟩] ∧
    (mkSeekEventRow 0 ⟨100, 10, false, "seek"⟩).toSecond ≤
      (mkSeekEventRow 0 ⟨100, 10, false, "seek"⟩).fromSecond ∧
    (mkSeekEventRow 0 ⟨100, 10, false, "seek"⟩).isSkip = true := by
  refine ⟨rfl, ?_, ?_⟩
  · show (10:ℚ) ≤ 100
    norm_num
  · show (!false && decide (|(10:ℚ) - 100| > 5)) = true
    rw [show |(10:ℚ) - 100| = 90 by norm_num]
    simp only [Bool.not_false, Bool.true_and, decide_eq_true_eq]
    norm_num

/-- C3 (amended): for a backward (or in-place) seek the stored row keeps the
absolute distance, and isSkip is true exactly when the seek was disallowed
and the backward distance exceeds 5 seconds; so disallowed backward jumps
longer than 5 seconds are classified as skips. -/
theorem backward_seek_skip_iff (st : DBState) (sessionId : ℕ)
    (seekData : SeekEventData) (hback : seekData.toSecond ≤ seekData.fromSecond) :
    (recordSeekEvent st sessionId seekData).seekEvents =
      st.seekEvents ++ [mkSeekEventRow sessionId seekData] ∧
    (mkSeekEventRow sessionId seekData).skipDistance =
      seekData.fromSecond - seekData.toSecond ∧
    ((mkSeekEventRow sessionId seekData).isSkip = true ↔
      seekData.allowed = false ∧ 5 < seekData.fromSecond - seekData.toSecond) := by
  have habs : |seekData.toSecond - seekData.fromSecond| =
      seekData.fromSecond - seekData.toSecond := by
    rw [abs_sub_comm]
    exact abs_of_nonneg (by linarith)
  refine ⟨rfl, ?_, ?_⟩
  · show |seekData.toSecond - seekData.fromSecond| = _
    exact habs
  · show (!seekData.allowed &&
        decide (|seekData.toSecond - seekData.fromSecond| > 5)) = true ↔ _
    rw [habs]
    cases seekData.allowed <;> simp

theorem backward_seek_skip_iff_witness :
    ((10:ℚ) ≤ 100) ∧
    ((recordSeekEvent ⟨[], [], [], []⟩ 0 ⟨100, 10, false, "seek"⟩).seekEvents =
        [mkSeekEventRow 0 ⟨100, 10, false, "seek"⟩] ∧
      (mkSeekEventRow 0 ⟨100, 10, false, "seek"⟩).skipDistance = (100:ℚ) - 10 ∧
      ((mkSeekEventRow 0 ⟨100, 10, false, "seek"⟩).isSkip = true ↔
        (false = false ∧ (5:ℚ) < 100 - 10))) := by
  have hback : ((⟨100, 10, false, "seek"⟩ : SeekEventData)).toSecond ≤
      ((⟨100, 10, false, "seek"⟩ : SeekEventData)).fromSecond := by
    show (10:ℚ) ≤ 100
    norm_num
  exact ⟨hback, backward_seek_skip_iff ⟨[], [], [], []⟩ 0 _ hback⟩

/-! Idempotent segment recording. -/

/-- C9: recordWatchSegment is an idempotent insert guarded by the unique key
(sessionId, clientEventId): a duplicate key leaves the whole database state
unchanged (a silent success), a fresh key appends exactly one row, and
recording the same segment twice equals recording it once. -/
theorem recordWatchSegment_idempotent_insert (st : DBState) (sessionId : ℕ)
    (segment : WatchSegmentData) :
    ((∃ r ∈ st.segments,
        r.sessionId = sessionId ∧ r.clientEventId = segment.clientEventId) →
      recordWatchSegment st sessionId segment = st) ∧
    ((¬ ∃ r ∈ st.segments,
        r.sessionId = sessionId ∧ r.clientEventId = segment.clientEventId) →
      recordWatchSegment st sessionId segment =
        { st with segments := st.segments ++
            [{ sessionId := sessionId
               clientEventId := segment.clientEventId
               startSecond := segment.startSecond
               endSecond := segment.endSecond
               speed := segment.speed }] }) ∧
    recordWatchSegment (recordWatchSegment st sessionId segment) sessionId segment =
      recordWatchSegment st sessionId segment := by
  have hany : ∀ l : List WatchSegmentRow,
      (l.any fun r =>
        r.sessionId == sessionId && r.clientEventId == segment.clientEventId) = true ↔
      ∃ r ∈ l, r.sessionId = sessionId ∧ r.clientEventId = segment.clientEventId := by
    intro l
    rw [List.any_eq_true]
    constructor
    · rintro ⟨r, hr, hp⟩
      rw [Bool.and_eq_true, beq_iff_eq, beq_iff_eq] at hp
      exact ⟨r, hr, hp⟩
    · rintro ⟨r, hr, h1, h2⟩
      exact ⟨r, hr, by rw [Bool.and_eq_true, beq_iff_eq, beq_iff_eq]; exact ⟨h1, h2⟩⟩
  refine ⟨?_, ?_, ?_⟩
  · intro h
    rw [recordWatchSegment, if_pos ((hany st.segments).mpr h)]
  · intro h
    rw [recordWatchSegment, if_neg]
    intro hc
    exact h ((hany st.segments).mp hc)
  · by_cases h : (st.segments.any fun r =>
        r.sessionId == sessionId && r.clientEventId == segment.clientEventId) = true
    · have h1 : recordWatchSegment st sessionId segment = st := by
        rw [recordWatchSegment, if_pos h]
      rw [h1]
      exact h1
    · have h1 : recordWatchSegment st sessionId segment =
          { st with segments := st.segments ++
              [{ sessionId := sessionId
                 clientEventId := segment.clientEventId
                 startSecond := segment.startSecond
                 endSecond := segment.endSecond
                 speed := segment.speed }] } := by
        rw [recordWatchSegment, if_neg h]
      rw [h1, recordWatchSegment, if_pos]
      rw [hany]
      refine ⟨{ sessionId := sessionId
                clientEventId := segment.clientEventId
                startSecond := segment.startSecond
                endSecond := segment.endSecond
                speed := segment.speed }, ?_, rfl, rfl⟩
      show _ ∈ st.segments ++ [_]
      exact List.mem_append_right _ (List.mem_singleton_self _)

theorem recordWatchSegment_idempotent_insert_witness :
    (¬ ∃ r ∈ (⟨[], [], [], []⟩ : DBState).segments,
        r.sessionId = 0 ∧ r.clientEventId = "e1") ∧
    recordWatchSegment (⟨[], [], [], []⟩ : DBState) 0 ⟨"e1", 0, 10, 1⟩ =
      { (⟨[], [], [], []⟩ : DBState) with segments :=
          (⟨[], [], [], []⟩ : DBState).segments ++
            [{ sessionId := 0, clientEventId := "e1",
               startSecond := 0, endSecond := 10, speed := 1 }] } ∧
    recordWatchSegment
        (recordWatchSegment (⟨[], [], [], []⟩ : DBState) 0 ⟨"e1", 0, 10, 1⟩)
        0 ⟨"e1", 0, 10, 1⟩ =
      recordWatchSegment (⟨[], [], [], []⟩ : DBState) 0 ⟨"e1", 0, 10, 1⟩ := by
  have hspec := recordWatchSegment_idempotent_insert
    (⟨[], [], [], []⟩ : DBState) 0 ⟨"e1", 0, 10, 1⟩
  have hnone : ¬ ∃ r ∈ (⟨[], [], [], []⟩ : DBState).segments,
      r.sessionId = 0 ∧ r.clientEventId = "e1" := by
    rintro ⟨r, hr, -⟩
    cases hr
  exact ⟨hnone, hspec.2.1 hnone, hspec.2.2⟩

/-! Characterization of closeSession on the database state. -/

theorem find?_sessions_map (l : List WatchSessionRow) (k : ℕ)
    (f : WatchSessionRow → WatchSessionRow) (hf : ∀ s, (f s).id = s.id) :
    (l.map f).find? (fun s => s.id == k) =
      (l.find? fun s => s.id == k).map f := by
  have hcongr : ((fun s : WatchSessionRow => s.id == k) ∘ f) =
      fun s : WatchSessionRow => s.id == k := by
    funext s
    show ((f s).id == k) = (s.id == k)
    rw [hf s]
  rw [List.find?_map, hcongr]

theorem find?_attempts_map (l : List LessonAttemptRow) (k : ℕ)
    (f : LessonAttemptRow → LessonAttemptRow) (hf : ∀ a, (f a).id = a.id) :
    (l.map f).find? (fun a => a.id == k) =
      (l.find? fun a => a.id == k).map f := by
  have hcongr : ((fun a : LessonAttemptRow => a.id == k) ∘ f) =
      fun a : LessonAttemptRow => a.id == k := by
    funext a
    show ((f a).id == k) = (a.id == k)
    rw [hf a]
  rw [List.find?_map, hcongr]

/-- Unfolding of closeSession for a linked session: closedAt is stamped on
the session row and the linked attempt row is overwritten with the summary
of this sessions segments, adding the skip count. -/
theorem closeSession_eq (st : DBState) (now sessionId attemptId : ℕ)
    (sess : WatchSessionRow)
    (hfind : findSession st sessionId = some sess)
    (hlink : sess.lessonAttemptId = some attemptId) :
    closeSession st now sessionId =
      { st with
        sessions := st.sessions.map fun s =>
          if s.id == sessionId then { s with closedAt := some now } else s
        attempts := st.attempts.map (attemptUpdate st now sessionId attemptId) } := by
  rw [findSession] at hfind
  have hid := List.find?_some hfind
  have hfind1 : ((st.sessions.map fun s =>
      if s.id == sessionId then { s with closedAt := some now } else s).find?
        fun s => s.id == sessionId) =
      some { sess with closedAt := some now } := by
    rw [find?_sessions_map st.sessions sessionId _
      (fun s => by split <;> rfl)]
    rw [hfind]
    show some (if sess.id == sessionId then _ else sess) = _
    rw [if_pos hid]
  rw [closeSession]
  show calculateSessionProgress
    { st with sessions := st.sessions.map fun s =>
        if s.id == sessionId then { s with closedAt := some now } else s }
    now sessionId = _
  rw [calculateSessionProgress]
  dsimp only
  rw [hfind1, Option.some_bind]
  show (sess.lessonAttemptId.elim _ _ : DBState) = _
  rw [hlink]
  rfl

theorem calculateSessionProgress_frame (st : DBState) (now sessionId : ℕ) :
    (calculateSessionProgress st now sessionId).sessions = st.sessions ∧
    (calculateSessionProgress st now sessionId).segments = st.segments ∧
    (calculateSessionProgress st now sessionId).seekEvents = st.seekEvents := by
  rw [calculateSessionProgress]
  cases hx : ((st.sessions.find? fun s => s.id == sessionId).bind
      fun session => session.lessonAttemptId) with
  | none => exact ⟨rfl, rfl, rfl⟩
  | some attemptId => exact ⟨rfl, rfl, rfl⟩

theorem closeSession_frame (st : DBState) (now sessionId : ℕ) :
    (closeSession st now sessionId).segments = st.segments ∧
    (closeSession st now sessionId).seekEvents = st.seekEvents := by
  rw [closeSession]
  refine ⟨(calculateSessionProgress_frame _ now sessionId).2.1.trans rfl,
    (calculateSessionProgress_frame _ now sessionId).2.2.trans rfl⟩

theorem sessionSegments_congr {st st' : DBState} (h : st.segments = st'.segments)
    (sessionId : ℕ) : sessionSegments st sessionId = sessionSegments st' sessionId := by
  rw [sessionSegments, sessionSegments, h]

theorem sessionSkipCount_congr {st st' : DBState} (h : st.seekEvents = st'.seekEvents)
    (sessionId : ℕ) : sessionSkipCount st sessionId = sessionSkipCount st' sessionId := by
  rw [sessionSkipCount, sessionSkipCount, h]

theorem findSession_closeSession (st : DBState) (now sessionId attemptId : ℕ)
    (sess : WatchSessionRow)
    (hfind : findSession st sessionId = some sess)
    (hlink : sess.lessonAttemptId = some attemptId) :
    findSession (closeSession st now sessionId) sessionId =
      some { sess with closedAt := some now } := by
  rw [closeSession_eq st now sessionId attemptId sess hfind hlink, findSession]
  rw [findSession] at hfind
  have hid := List.find?_some hfind
  show ((st.sessions.map fun s =>
      if s.id == sessionId then { s with closedAt := some now } else s).find?
        fun s => s.id == sessionId) = _
  rw [find?_sessions_map st.sessions sessionId _ (fun s => by split <;> rfl), hfind]
  show some (if sess.id == sessionId then _ else sess) = _
  rw [if_pos hid]

theorem findAttempt_closeSession (st : DBState) (now sessionId attemptId : ℕ)
    (sess : WatchSessionRow) (a : LessonAttemptRow)
    (hfind : findSession st sessionId = some sess)
    (hlink : sess.lessonAttemptId = some attemptId)
    (hatt : findAttempt st attemptId = some a) :
    findAttempt (closeSession st now sessionId) attemptId =
      some { a with
        maxVerifiedSecond := (calculateProgressFromSegments
          ((sessionSegments st sessionId).map segmentOfRow)).maxVerifiedSecond
        totalEffectiveSeconds := (calculateProgressFromSegments
          ((sessionSegments st sessionId).map segmentOfRow)).totalEffectiveSeconds
        coverageSeconds := (calculateProgressFromSegments
          ((sessionSegments st sessionId).map segmentOfRow)).coverageSeconds
        skipEvents := a.skipEvents + sessionSkipCount st sessionId
        updatedAt := now } := by
  rw [closeSession_eq st now sessionId attemptId sess hfind hlink, findAttempt]
  rw [findAttempt] at hatt
  have haid := List.find?_some hatt
  show ((st.attempts.map (attemptUpdate st now sessionId attemptId)).find?
      fun x => x.id == attemptId) = _
  rw [find?_attempts_map st.attempts attemptId _
    (fun x => by rw [attemptUpdate]; split <;> rfl), hatt]
  show some (attemptUpdate st now sessionId attemptId a) = _
  rw [attemptUpdate, if_pos haid]

/-- C1 (amended): closing a linked session does not apply a merge rule: the
linked attempt rows maxVerifiedSecond, totalEffectiveSeconds, and
coverageSeconds are overwritten with the summary computed from the closing
sessions segments alone, ignoring the attempts current values and the other
sessions under the attempt; only skipEvents is incremented, by the closing
sessions skip count. -/
theorem closeSession_overwrites_attempt (st : DBState)
    (now sessionId attemptId : ℕ)
    (sess : WatchSessionRow) (a : LessonAttemptRow)
    (hfind : findSession st sessionId = some sess)
    (hlink : sess.lessonAttemptId = some attemptId)
    (hatt : findAttempt st attemptId = some a) :
    findAttempt (closeSession st now sessionId) attemptId =
      some { a with
        maxVerifiedSecond := (calculateProgressFromSegments
          ((sessionSegments st sessionId).map segmentOfRow)).maxVerifiedSecond
        totalEffectiveSeconds := (calculateProgressFromSegments
          ((sessionSegments st sessionId).map segmentOfRow)).totalEffectiveSeconds
        coverageSeconds := (calculateProgressFromSegments
          ((sessionSegments st sessionId).map segmentOfRow)).coverageSeconds
        skipEvents := a.skipEvents + sessionSkipCount st sessionId
        updatedAt := now } :=
  findAttempt_closeSession st now sessionId attemptId sess a hfind hlink hatt

/-- C2 (amended): a second close of the same session recomputes and stores
the same maxVerifiedSecond, totalEffectiveSeconds, and coverageSeconds, but
adds the sessions skip-event count to skipEvents a second time, and
overwrites closedAt with the later close time; so a repeated close is not a
no-op (unless the session has no skip events), and closedAt is not set
exactly once. -/
theorem closeSession_twice (st : DBState) (now₁ now₂ sessionId attemptId : ℕ)
    (sess : WatchSessionRow) (a : LessonAttemptRow)
    (hfind : findSession st sessionId = some sess)
    (hlink : sess.lessonAttemptId = some attemptId)
    (hatt : findAttempt st attemptId = some a) :
    ∃ a₁, findAttempt (closeSession st now₁ sessionId) attemptId = some a₁ ∧
      findAttempt (closeSession (closeSession st now₁ sessionId) now₂ sessionId)
          attemptId =
        some { a₁ with
          skipEvents := a₁.skipEvents + sessionSkipCount st sessionId
          updatedAt := now₂ } ∧
      findSession (closeSession (closeSession st now₁ sessionId) now₂ sessionId)
          sessionId = some { sess with closedAt := some now₂ } := by
  have h1 := findAttempt_closeSession st now₁ sessionId attemptId sess a hfind hlink hatt
  have hfind1 := findSession_closeSession st now₁ sessionId attemptId sess hfind hlink
  have hlink1 : ({ sess with closedAt := some now₁ } : WatchSessionRow).lessonAttemptId =
      some attemptId := hlink
  have hsegeq : sessionSegments (closeSession st now₁ sessionId) sessionId =
      sessionSegments st sessionId :=
    sessionSegments_congr (closeSession_frame st now₁ sessionId).1 sessionId
  have hskipeq : sessionSkipCount (closeSession st now₁ sessionId) sessionId =
      sessionSkipCount st sessionId :=
    sessionSkipCount_congr (closeSession_frame st now₁ sessionId).2 sessionId
  have h2 := findAttempt_closeSession (closeSession st now₁ sessionId) now₂ sessionId
    attemptId { sess with closedAt := some now₁ } _ hfind1 hlink1 h1
  rw [hsegeq, hskipeq] at h2
  have h3 := findSession_closeSession (closeSession st now₁ sessionId) now₂ sessionId
    attemptId { sess with closedAt := some now₁ } hfind1 hlink1
  exact ⟨_, h1, h2, h3⟩

/-- C10: closing a session id that does not exist, or a session with no
linked lesson attempt, leaves the lesson_attempt table (and the segment and
seek-event tables) unchanged: aggregation short-circuits. -/
theorem closeSession_missing_or_unlinked (st : DBState) (now sessionId : ℕ)
    (h : findSession st sessionId = none ∨
      ∃ sess, findSession st sessionId = some sess ∧ sess.lessonAttemptId = none) :
    (closeSession st now sessionId).attempts = st.attempts ∧
    (closeSession st now sessionId).segments = st.segments ∧
    (closeSession st now sessionId).seekEvents = st.seekEvents := by
  refine ⟨?_, (closeSession_frame st now sessionId).1,
    (closeSession_frame st now sessionId).2⟩
  rw [closeSession]
  show (calculateSessionProgress
    { st with sessions := st.sessions.map fun s =>
        if s.id == sessionId then { s with closedAt := some now } else s }
    now sessionId).attempts = st.attempts
  rw [calculateSessionProgress]
  rcases h with hnone | ⟨sess, hsess, hlinknone⟩
  · rw [findSession] at hnone
    have hf : ((st.sessions.map fun s =>
        if s.id == sessionId then { s with closedAt := some now } else s).find?
          fun s => s.id == sessionId) = none := by
      rw [find?_sessions_map st.sessions sessionId _ (fun s => by split <;> rfl),
        hnone]
      rfl
    dsimp only
    rw [hf]
    rfl
  · rw [findSession] at hsess
    have hid := List.find?_some hsess
    have hf : ((st.sessions.map fun s =>
        if s.id == sessionId then { s with closedAt := some now } else s).find?
          fun s => s.id == sessionId) =
        some { sess with closedAt := some now } := by
      rw [find?_sessions_map st.sessions sessionId _ (fun s => by split <;> rfl),
        hsess]
      show some (if sess.id == sessionId then _ else sess) = _
      rw [if_pos hid]
    dsimp only
    rw [hf, Option.some_bind]
    dsimp only
    rw [hlinknone]
    rfl

theorem closeSession_missing_or_unlinked_witness :
    (findSession (⟨[], [], [], [⟨0, 1, 2, 3, 4, 0⟩]⟩ : DBState) 7 = none ∨
      ∃ sess, findSession (⟨[], [], [], [⟨0, 1, 2, 3, 4, 0⟩]⟩ : DBState) 7 =
          some sess ∧ sess.lessonAttemptId = none) ∧
    (closeSession (⟨[], [], [], [⟨0, 1, 2, 3, 4, 0⟩]⟩ : DBState) 9 7).attempts =
      (⟨[], [], [], [⟨0, 1, 2, 3, 4, 0⟩]⟩ : DBState).attempts ∧
    (closeSession (⟨[], [], [], [⟨0, 1, 2, 3, 4, 0⟩]⟩ : DBState) 9 7).segments =
      (⟨[], [], [], [⟨0, 1, 2, 3, 4, 0⟩]⟩ : DBState).segments ∧
    (closeSession (⟨[], [], [], [⟨0, 1, 2, 3, 4, 0⟩]⟩ : DBState) 9 7).seekEvents =
      (⟨[], [], [], [⟨0, 1, 2, 3, 4, 0⟩]⟩ : DBState).seekEvents := by
  have h : findSession (⟨[], [], [], [⟨0, 1, 2, 3, 4, 0⟩]⟩ : DBState) 7 = none ∨
      ∃ sess, findSession (⟨[], [], [], [⟨0, 1, 2, 3, 4, 0⟩]⟩ : DBState) 7 =
          some sess ∧ sess.lessonAttemptId = none :=
    Or.inl rfl
  exact ⟨h, closeSession_missing_or_unlinked _ 9 7 h⟩

theorem coverage_nil : calculateCoverageFromIntervals ([] : List Interval) = 0 := by
  rw [calculateCoverageFromIntervals, sortIntervals, List.mergeSort_nil]
  rfl

/-- C1 counterexample: the attempt aggregate starts at (100, 50, 100) and a
second, already-closed session of the same attempt holds the segment
[50,60); closing session 0 (whose only segment is [0,10) at speed 1) stores
(10, 10, 10): not max(100,10)=100, not 50+10=60, and not the 20 obtained by
merging the intervals of all sessions under the attempt. -/
theorem closeSession_merge_rule_counterexample :
    findAttempt
        (closeSession
          ⟨[⟨0, some 0, none⟩, ⟨1, some 0, some 1⟩],
            [⟨0, "a", 0, 10, 1⟩, ⟨1, "b", 50, 60, 1⟩], [],
            [⟨0, 100, 50, 100, 0, 0⟩]⟩ 5 0) 0 =
      some ⟨0, 10, 10, 10, 0, 5⟩ ∧
    max (100:ℚ) 10 = 100 ∧ (10:ℚ) ≠ 100 ∧
    (50:ℚ) + 10 = 60 ∧ (10:ℚ) ≠ 60 ∧
    calculateCoverageFromIntervals [((0:ℚ), 10), (50, 60)] = 20 ∧
    (10:ℚ) ≠ 20 := by
  refine ⟨?_, max_eq_left (by norm_num), by norm_num, by norm_num, by norm_num,
    ?_, by norm_num⟩
  · have h1 := findAttempt_closeSession
      ⟨[⟨0, some 0, none⟩, ⟨1, some 0, some 1⟩],
        [⟨0, "a", 0, 10, 1⟩, ⟨1, "b", 50, 60, 1⟩], [],
        [⟨0, 100, 50, 100, 0, 0⟩]⟩ 5 0 0 ⟨0, some 0, none⟩
      ⟨0, 100, 50, 100, 0, 0⟩ rfl rfl rfl
    have hsegs : sessionSegments
        ⟨[⟨0, some 0, none⟩, ⟨1, some 0, some 1⟩],
          [⟨0, "a", 0, 10, 1⟩, ⟨1, "b", 50, 60, 1⟩], [],
          [⟨0, 100, 50, 100, 0, 0⟩]⟩ 0 = [⟨0, "a", 0, 10, 1⟩] := by
      rw [sessionSegments]
      have hfilter : (List.filter (fun r => r.sessionId == 0)
          [(⟨0, "a", 0, 10, 1⟩ : WatchSegmentRow), ⟨1, "b", 50, 60, 1⟩]) =
          [⟨0, "a", 0, 10, 1⟩] := rfl
      rw [show ((⟨[⟨0, some 0, none⟩, ⟨1, some 0, some 1⟩],
          [⟨0, "a", 0, 10, 1⟩, ⟨1, "b", 50, 60, 1⟩], [],
          [⟨0, 100, 50, 100, 0, 0⟩]⟩ : DBState)).segments =
          [(⟨0, "a", 0, 10, 1⟩ : WatchSegmentRow), ⟨1, "b", 50, 60, 1⟩] from rfl]
      rw [hfilter, List.mergeSort_singleton]
    have hskip : sessionSkipCount
        ⟨[⟨0, some 0, none⟩, ⟨1, some 0, some 1⟩],
          [⟨0, "a", 0, 10, 1⟩, ⟨1, "b", 50, 60, 1⟩], [],
          [⟨0, 100, 50, 100, 0, 0⟩]⟩ 0 = 0 := rfl
    rw [h1, hsegs, hskip]
    have hmap : ([(⟨0, "a", 0, 10, 1⟩ : WatchSegmentRow)].map segmentOfRow) =
        [Segment.mk 0 10 1] := rfl
    rw [hmap]
    have hmax : (calculateProgressFromSegments [Segment.mk 0 10 1]).maxVerifiedSecond
        = 10 := by
      rw [calculateProgress_maxVerifiedSecond]
      show max (0:ℚ) 10 = 10
      exact max_eq_right (by norm_num)
    have htot : (calculateProgressFromSegments
        [Segment.mk 0 10 1]).totalEffectiveSeconds = 10 := by
      rw [calculateProgress_totalEffectiveSeconds]
      show (0:ℚ) + (10 - 0) / 1 = 10
      norm_num
    have hcov : (calculateProgressFromSegments [Segment.mk 0 10 1]).coverageSeconds
        = 10 := by
      rw [calculateProgress_coverageSeconds]
      show calculateCoverageFromIntervals [((0:ℚ), 10)] = 10
      rw [calculateCoverageFromIntervals, sortIntervals, List.mergeSort_singleton]
      show (0:ℚ) + (10 - 0) = 10
      norm_num
    rw [hmax, htot, hcov]
  · have hsorted : sortIntervals [((0:ℚ), 10), (50, 60)] =
        [((0:ℚ), 10), (50, 60)] := by
      rw [sortIntervals]
      apply List.mergeSort_of_sorted
      constructor
      · intro b hb
        simp only [List.mem_singleton] at hb
        subst hb
        norm_num
      · simp
    rw [calculateCoverageFromIntervals, hsorted]
    show coverLoop 0 10 0 [((50:ℚ), 60)] = 20
    rw [coverLoop_cons, if_neg (by norm_num : ¬ (50:ℚ) ≤ 10), coverLoop_nil]
    norm_num

theorem closeSession_overwrites_attempt_witness :
    findSession (⟨[⟨3, some 4, none⟩], [], [], [⟨4, 7, 8, 9, 2, 0⟩]⟩ : DBState) 3 =
      some ⟨3, some 4, none⟩ ∧
    (⟨3, some 4, none⟩ : WatchSessionRow).lessonAttemptId = some 4 ∧
    findAttempt (⟨[⟨3, some 4, none⟩], [], [], [⟨4, 7, 8, 9, 2, 0⟩]⟩ : DBState) 4 =
      some ⟨4, 7, 8, 9, 2, 0⟩ ∧
    findAttempt
        (closeSession (⟨[⟨3, some 4, none⟩], [], [], [⟨4, 7, 8, 9, 2, 0⟩]⟩ : DBState)
          11 3) 4 =
      some { (⟨4, 7, 8, 9, 2, 0⟩ : LessonAttemptRow) with
        maxVerifiedSecond := (calculateProgressFromSegments
          ((sessionSegments
              (⟨[⟨3, some 4, none⟩], [], [], [⟨4, 7, 8, 9, 2, 0⟩]⟩ : DBState) 3).map
            segmentOfRow)).maxVerifiedSecond
        totalEffectiveSeconds := (calculateProgressFromSegments
          ((sessionSegments
              (⟨[⟨3, some 4, none⟩], [], [], [⟨4, 7, 8, 9, 2, 0⟩]⟩ : DBState) 3).map
            segmentOfRow)).totalEffectiveSeconds
        coverageSeconds := (calculateProgressFromSegments
          ((sessionSegments
              (⟨[⟨3, some 4, none⟩], [], [], [⟨4, 7, 8, 9, 2, 0⟩]⟩ : DBState) 3).map
            segmentOfRow)).coverageSeconds
        skipEvents := (⟨4, 7, 8, 9, 2, 0⟩ : LessonAttemptRow).skipEvents +
          sessionSkipCount
            (⟨[⟨3, some 4, none⟩], [], [], [⟨4, 7, 8, 9, 2, 0⟩]⟩ : DBState) 3
        updatedAt := 11 } :=
  ⟨rfl, rfl, rfl,
    closeSession_overwrites_attempt _ 11 3 4 ⟨3, some 4, none⟩ ⟨4, 7, 8, 9, 2, 0⟩
      rfl rfl rfl⟩

/-- C2 counterexample: a session with one skip event: the first close sets
the attempt skip counter to 1, the second close raises it to 2 (a double
add), and closedAt is overwritten by the second close time. -/
theorem closeSession_not_idempotent_counterexample :
    findAttempt
        (closeSession
          (⟨[⟨0, some 0, none⟩], [], [⟨0, 10, 50, false, "s", true, 40⟩],
            [⟨0, 0, 0, 0, 0, 0⟩]⟩ : DBState) 1 0) 0 =
      some ⟨0, 0, 0, 0, 1, 1⟩ ∧
    findAttempt
        (closeSession
          (closeSession
            (⟨[⟨0, some 0, none⟩], [], [⟨0, 10, 50, false, "s", true, 40⟩],
              [⟨0, 0, 0, 0, 0, 0⟩]⟩ : DBState) 1 0) 2 0) 0 =
      some ⟨0, 0, 0, 0, 2, 2⟩ ∧
    (2:ℕ) ≠ 1 ∧
    findSession
        (closeSession
          (closeSession
            (⟨[⟨0, some 0, none⟩], [], [⟨0, 10, 50, false, "s", true, 40⟩],
              [⟨0, 0, 0, 0, 0, 0⟩]⟩ : DBState) 1 0) 2 0) 0 =
      some ⟨0, some 0, some 2⟩ := by
  have hsegs : sessionSegments
      (⟨[⟨0, some 0, none⟩], [], [⟨0, 10, 50, false, "s", true, 40⟩],
        [⟨0, 0, 0, 0, 0, 0⟩]⟩ : DBState) 0 = [] := by
    rw [sessionSegments]
    rw [show (List.filter (fun r => r.sessionId == 0)
        (⟨[⟨0, some 0, none⟩], [], [⟨0, 10, 50, false, "s", true, 40⟩],
          [⟨0, 0, 0, 0, 0, 0⟩]⟩ : DBState).segments) = [] from rfl]
    exact List.mergeSort_nil
  have hskip : sessionSkipCount
      (⟨[⟨0, some 0, none⟩], [], [⟨0, 10, 50, false, "s", true, 40⟩],
        [⟨0, 0, 0, 0, 0, 0⟩]⟩ : DBState) 0 = 1 := rfl
  have hmax0 : (calculateProgressFromSegments ([] : List Segment)).maxVerifiedSecond
      = 0 := rfl
  have htot0 : (calculateProgressFromSegments
      ([] : List Segment)).totalEffectiveSeconds = 0 := rfl
  have hcov0 : (calculateProgressFromSegments ([] : List Segment)).coverageSeconds
      = 0 := by
    rw [calculateProgress_coverageSeconds]
    exact coverage_nil
  have h1 := findAttempt_closeSession
    (⟨[⟨0, some 0, none⟩], [], [⟨0, 10, 50, false, "s", true, 40⟩],
      [⟨0, 0, 0, 0, 0, 0⟩]⟩ : DBState) 1 0 0 ⟨0, some 0, none⟩
    ⟨0, 0, 0, 0, 0, 0⟩ rfl rfl rfl
  rw [hsegs, hskip] at h1
  rw [show (([] : List WatchSegmentRow).map segmentOfRow) = [] from rfl] at h1
  rw [hmax0, htot0, hcov0] at h1
  have hA : findAttempt
      (closeSession
        (⟨[⟨0, some 0, none⟩], [], [⟨0, 10, 50, false, "s", true, 40⟩],
          [⟨0, 0, 0, 0, 0, 0⟩]⟩ : DBState) 1 0) 0 = some ⟨0, 0, 0, 0, 1, 1⟩ := h1
  have hfind1 := findSession_closeSession
    (⟨[⟨0, some 0, none⟩], [], [⟨0, 10, 50, false, "s", true, 40⟩],
      [⟨0, 0, 0, 0, 0, 0⟩]⟩ : DBState) 1 0 0 ⟨0, some 0, none⟩ rfl rfl
  have hframe := closeSession_frame
    (⟨[⟨0, some 0, none⟩], [], [⟨0, 10, 50, false, "s", true, 40⟩],
      [⟨0, 0, 0, 0, 0, 0⟩]⟩ : DBState) 1 0
  have hsegs1 : sessionSegments
      (closeSession
        (⟨[⟨0, some 0, none⟩], [], [⟨0, 10, 50, false, "s", true, 40⟩],
          [⟨0, 0, 0, 0, 0, 0⟩]⟩ : DBState) 1 0) 0 = [] :=
    (sessionSegments_congr hframe.1 0).trans hsegs
  have hskip1 : sessionSkipCount
      (closeSession
        (⟨[⟨0, some 0, none⟩], [], [⟨0, 10, 50, false, "s", true, 40⟩],
          [⟨0, 0, 0, 0, 0, 0⟩]⟩ : DBState) 1 0) 0 = 1 :=
    (sessionSkipCount_congr hframe.2 0).trans hskip
  have h2 := findAttempt_closeSession
    (closeSession
      (⟨[⟨0, some 0, none⟩], [], [⟨0, 10, 50, false, "s", true, 40⟩],
        [⟨0, 0, 0, 0, 0, 0⟩]⟩ : DBState) 1 0) 2 0 0 ⟨0, some 0, some 1⟩
    ⟨0, 0, 0, 0, 1, 1⟩ hfind1 rfl hA
  rw [hsegs1, hskip1] at h2
  rw [show (([] : List WatchSegmentRow).map segmentOfRow) = [] from rfl] at h2
  rw [hmax0, htot0, hcov0] at h2
  have hD := findSession_closeSession
    (closeSession
      (⟨[⟨0, some 0, none⟩], [], [⟨0, 10, 50, false, "s", true, 40⟩],
        [⟨0, 0, 0, 0, 0, 0⟩]⟩ : DBState) 1 0) 2 0 0 ⟨0, some 0, some 1⟩ hfind1 rfl
  exact ⟨hA, h2, by norm_num, hD⟩

theorem closeSession_twice_witness :
    findSession (⟨[⟨0, some 0, none⟩], [], [⟨0, 10, 50, false, "s", true, 40⟩],
        [⟨0, 0, 0, 0, 0, 0⟩]⟩ : DBState) 0 = some ⟨0, some 0, none⟩ ∧
    (⟨0, some 0, none⟩ : WatchSessionRow).lessonAttemptId = some 0 ∧
    findAttempt (⟨[⟨0, some 0, none⟩], [], [⟨0, 10, 50, false, "s", true, 40⟩],
        [⟨0, 0, 0, 0, 0, 0⟩]⟩ : DBState) 0 = some ⟨0, 0, 0, 0, 0, 0⟩ ∧
    ∃ a₁,
      findAttempt
          (closeSession
            (⟨[⟨0, some 0, none⟩], [], [⟨0, 10, 50, false, "s", true, 40⟩],
              [⟨0, 0, 0, 0, 0, 0⟩]⟩ : DBState) 3 0) 0 = some a₁ ∧
      findAttempt
          (closeSession
            (closeSession
              (⟨[⟨0, some 0, none⟩], [], [⟨0, 10, 50, false, "s", true, 40⟩],
                [⟨0, 0, 0, 0, 0, 0⟩]⟩ : DBState) 3 0) 4 0) 0 =
        some { a₁ with
          skipEvents := a₁.skipEvents +
            sessionSkipCount
              (⟨[⟨0, some 0, none⟩], [], [⟨0, 10, 50, false, "s", true, 40⟩],
                [⟨0, 0, 0, 0, 0, 0⟩]⟩ : DBState) 0
          updatedAt := 4 } ∧
      findSession
          (closeSession
            (closeSession
              (⟨[⟨0, some 0, none⟩], [], [⟨0, 10, 50, false, "s", true, 40⟩],
                [⟨0, 0, 0, 0, 0, 0⟩]⟩ : DBState) 3 0) 4 0) 0 =
        some ⟨0, some 0, some 4⟩ :=
  ⟨rfl, rfl, rfl,
    closeSession_twice _ 3 4 0 0 ⟨0, some 0, none⟩ ⟨0, 0, 0, 0, 0, 0⟩ rfl rfl rfl⟩

end VideoProgress
